import Mathlib

/-!
Verification of the collapsed Gibbs sampler for Latent Dirichlet Allocation
implemented in `src/sampler_class.py` (class `LatentDirichletAllocation`).

The Python code is shallowly embedded below:
* the corpus (`iden_to_tokens`, a Python dict from document id to token list)
  becomes an association list `Corpus`;
* the three `Counter`-based count tables become integer-valued functions
  (a `Counter` reads 0 at a missing key and may go negative under `-=`);
* floating point numbers become rationals;
* the random draws of `np.random.randint` (the initial topic assignment) and
  `random.choices` (the per-token categorical draw) are parametrised by an
  explicit assignment function and an explicit stream of uniform variates;
* Python exceptions become `Except String`.
-/

namespace LDA

abbrev Corpus := List (String × List String)

/-- A default string (used where Python indexing is total in context). -/
def noWord : String := ""

/-- Modelled from the spec: `get_unique_words` lives in `src/utility.py`,
which is not part of the provided sources.  Per the spec (Vocabulary
Indexer), it derives the set of unique tokens across the corpus with a
stable enumeration; we realise the stable enumeration by deduplicating the
concatenation of all documents. -/
def get_unique_words (docs : List (List String)) : List String :=
  docs.flatten.dedup

/-- `np.zeros((r, c))` as a list-of-rows rational matrix. -/
def zerosMatrix (r c : Nat) : List (List ℚ) :=
  List.replicate r (List.replicate c 0)

/-- The state built by `LatentDirichletAllocation.__init__`. -/
structure LDAModel where
  iden_to_tokens : Corpus
  K : ℕ
  alpha : ℚ
  beta : ℚ
  vocabulary : List String
  W : ℕ
  theta_matrix : List (List ℚ)
  phi_matrix : List (List ℚ)

def negativeDimMsg : String := "ValueError: negative dimensions are not allowed"

/-- `LatentDirichletAllocation.__init__`: stores the corpus and the
hyperparameters without any validation; the only way it can raise is
`np.zeros((K, ...))` rejecting a negative first dimension.  `K` is taken as
an integer exactly as in Python. -/
def lda_init (iden_to_tokens : Corpus) (K : ℤ) (alpha beta : ℚ) :
    Except String LDAModel :=
  if K < 0 then Except.error negativeDimMsg
  else
    let vocabulary := get_unique_words (iden_to_tokens.map Prod.snd)
    Except.ok
      { iden_to_tokens := iden_to_tokens
        K := K.toNat
        alpha := alpha
        beta := beta
        vocabulary := vocabulary
        W := vocabulary.length
        theta_matrix := zerosMatrix K.toNat iden_to_tokens.length
        phi_matrix := zerosMatrix K.toNat vocabulary.length }

/-- The three `Counter`-based count tables of the sampler. -/
structure Counts where
  document_topic_counts : String → ℕ → ℤ
  word_topic_counts : String → ℕ → ℤ
  total_topic_counts : ℕ → ℤ

/-- Sampler state: the per-token Markov chains of topics
(`document_word_topics_MC`) and the three count tables. -/
structure SamplerState where
  mc : String → List (List ℕ)
  cnt : Counts

/-- The topic list drawn for a document: defined for the keys of the corpus
(the Python dicts are keyed exactly by the corpus documents). -/
def assignFor (corpus : Corpus) (assign : String → List ℕ) (d : String) :
    List ℕ :=
  if d ∈ corpus.map Prod.fst then assign d else []

/-- `LatentDirichletAllocation._initialize_topics`, parametrised by the
random assignment `assign` standing for `np.random.randint(1, K + 1, ...)`:
each occurrence starts a one-element chain, and the three `Counter` tables
hold exactly the multiplicities of the initial assignment. -/
def init_topics (corpus : Corpus) (assign : String → List ℕ) : SamplerState :=
  { mc := fun d => (assignFor corpus assign d).map (fun t => [t])
    cnt :=
      { document_topic_counts := fun d k =>
          ((assignFor corpus assign d).count k : ℤ)
        word_topic_counts := fun w k =>
          (corpus.map (fun p => ((p.2.zip (assign p.1)).count (w, k) : ℤ))).sum
        total_topic_counts := fun k =>
          (corpus.map (fun p => ((assign p.1).count k : ℤ))).sum } }

/-- The unnormalized conditional density computed in the inner loop of
`fit` (lines 41-57 of the source): read the three counts, decrement each by
one when `curr_topic == k`, then `a_kj * b_wk`. -/
def densities (cnt : Counts) (W : ℕ) (alpha beta : ℚ) (doc word : String)
    (curr k : ℕ) : ℚ :=
  let N_kj := cnt.document_topic_counts doc k
  let N_wk := cnt.word_topic_counts word k
  let N_k := cnt.total_topic_counts k
  let N_kj := if curr = k then N_kj - 1 else N_kj
  let N_wk := if curr = k then N_wk - 1 else N_wk
  let N_k := if curr = k then N_k - 1 else N_k
  let a_kj := (N_kj : ℚ) + alpha
  let b_wk := ((N_wk : ℚ) + beta) / ((N_k : ℚ) + (W : ℚ) * beta)
  a_kj * b_wk

/-- The density vector `densities` of the source: index `i` holds the value
for topic `i + 1` (the source writes `densities[k - 1]`). -/
def weightsVec (cnt : Counts) (W K : ℕ) (alpha beta : ℚ) (doc word : String)
    (curr : ℕ) : List ℚ :=
  (List.range K).map (fun i => densities cnt W alpha beta doc word curr (i + 1))

def cumsum (ws : List ℚ) : List ℚ :=
  (ws.scanl (· + ·) 0).tail

def totalWeightMsg : String :=
  "ValueError: Total of weights must be greater than zero"

/-- `random.choices(population, weights=ws)[0]` for one draw, parametrised
by the uniform variate `u`: CPython accumulates the weights, raises
`ValueError` when the total is not positive, and otherwise returns
`population[bisect(cum_weights, u * total, 0, n - 1)]`. -/
def choices1 (population : List ℕ) (weights : List ℚ) (u : ℚ) :
    Except String ℕ :=
  if weights.sum ≤ 0 then Except.error totalWeightMsg
  else
    Except.ok (population.getD
      (((cumsum weights).take (population.length - 1)).countP
        (fun cw => cw ≤ u * weights.sum)) 0)

/-- The count updates of lines 67-75 of `fit` (three `-= 1` and three
`+= 1`); executed only when the drawn topic differs from the current one. -/
def updateCounts (cnt : Counts) (doc word : String) (curr t : ℕ) : Counts :=
  { document_topic_counts := fun d k =>
      cnt.document_topic_counts d k
        - (if d = doc ∧ k = curr then 1 else 0)
        + (if d = doc ∧ k = t then 1 else 0)
    word_topic_counts := fun w k =>
      cnt.word_topic_counts w k
        - (if w = word ∧ k = curr then 1 else 0)
        + (if w = word ∧ k = t then 1 else 0)
    total_topic_counts := fun k =>
      cnt.total_topic_counts k
        - (if k = curr then 1 else 0)
        + (if k = t then 1 else 0) }

/-- `document_word_topics_MC[doc][i].append(new_topic)`. -/
def appendTopic (mc : String → List (List ℕ)) (doc : String) (i t : ℕ) :
    String → List (List ℕ) :=
  fun d => if d = doc then (mc d).set i ((mc d).getD i [] ++ [t]) else mc d

/-- `document_word_topics_MC[doc][i][-1]`, the most recent topic of the
chain of occurrence `(doc, i)`. -/
def currentTopicAt (s : SamplerState) (doc : String) (i : ℕ) : ℕ :=
  (((s.mc doc).getD i []).getLast?).getD 0

/-- One iteration of the innermost loop of `fit` for the occurrence
`(doc, i)` carrying `word`: compute the density vector, draw a topic with
`random.choices`, append it to the chain, and update the counts unless the
topic is unchanged. -/
def token_step (W K : ℕ) (alpha beta : ℚ) (doc word : String) (i : ℕ)
    (u : ℚ) (s : SamplerState) : Except String SamplerState :=
  match choices1 ((List.range K).map (· + 1))
      (weightsVec s.cnt W K alpha beta doc word (currentTopicAt s doc i)) u with
  | Except.error e => Except.error e
  | Except.ok new_topic =>
    if new_topic = currentTopicAt s doc i then
      Except.ok { mc := appendTopic s.mc doc i new_topic, cnt := s.cnt }
    else
      Except.ok { mc := appendTopic s.mc doc i new_topic
                  cnt := updateCounts s.cnt doc word (currentTopicAt s doc i) new_topic }

/-- The visit order of one sweep: documents in corpus order, and inside a
document the tokens in position order (`for doc, words in ...: for i, word
in enumerate(words)`). -/
def tokenSeq (corpus : Corpus) : List (String × String × ℕ) :=
  corpus.flatMap (fun p =>
    (List.range p.2.length).map (fun i => (p.1, p.2.getD i noWord, i)))

/-- Run the per-token steps of one sweep in order, threading the uniform
variate stream `u` by a running index. -/
def runTokens (W K : ℕ) (alpha beta : ℚ) (u : ℕ → ℚ) :
    List (String × String × ℕ) → ℕ → SamplerState →
    Except String (SamplerState × ℕ)
  | [], n, s => Except.ok (s, n)
  | tk :: rest, n, s =>
    match token_step W K alpha beta tk.1 tk.2.1 tk.2.2 (u n) s with
    | Except.error e => Except.error e
    | Except.ok s2 => runTokens W K alpha beta u rest (n + 1) s2

/-- The `for j in trange(niter)` loop of `fit`: `niter` full sweeps. -/
def runSweeps (W K : ℕ) (alpha beta : ℚ) (u : ℕ → ℚ) (corpus : Corpus) :
    ℕ → ℕ → SamplerState → Except String (SamplerState × ℕ)
  | 0, n, s => Except.ok (s, n)
  | niter + 1, n, s =>
    match runTokens W K alpha beta u (tokenSeq corpus) n s with
    | Except.error e => Except.error e
    | Except.ok (s2, n2) => runSweeps W K alpha beta u corpus niter n2 s2

/-- One comparison step of the mode scan: prefer a strictly more frequent
value, and among equally frequent values the smaller one. -/
def modeStep (l : List ℕ) (acc x : ℕ) : ℕ :=
  if l.count acc < l.count x ∨ (l.count x = l.count acc ∧ x < acc) then x
  else acc

/-- `scipy.stats.mode(l, axis=None)[0][0]`: the smallest of the most
frequent values of `l` (scipy documents exactly this tie-break). -/
def listMode : List ℕ → ℕ
  | [] => 0
  | h :: t => (h :: t).foldl (modeStep (h :: t)) h

/-- `LatentDirichletAllocation._compute_MC_topic_approx`: collapse every
occurrence chain to the mode of the whole chain (no element is discarded). -/
def compute_MC_topic_approx (mc : String → List (List ℕ)) (d : String) :
    List ℕ :=
  (mc d).map listMode

/-- `LatentDirichletAllocation._compute_phi_estimates` (the method):
overwrite every entry `phi[k - 1, w]` with
`(N_wk + self.beta) / (N_k + self.W * self.beta)`; no other field of the
model is touched. -/
def compute_phi_estimates (m : LDAModel)
    (word_topic_counts : String → ℕ → ℤ) (total_topic_counts : ℕ → ℤ) :
    LDAModel :=
  { m with phi_matrix :=
      (List.range m.K).map (fun ki =>
        m.vocabulary.map (fun word =>
          ((word_topic_counts word (ki + 1) : ℚ) + m.beta)
            / ((total_topic_counts (ki + 1) : ℚ) + (m.W : ℚ) * m.beta))) }

def nameErrorMsg : String :=
  "NameError: name _compute_phi_estimates is not defined"

/-- `LatentDirichletAllocation.fit`: initialize, run `niter` sweeps, collapse
the chains, and then evaluate
`phi_matrix = _compute_phi_estimates(word_topic_counts, total_topic_counts, beta)`.
That expression resolves `_compute_phi_estimates` as a plain name; it is a
class attribute, not a module-level or local name, so the lookup raises
`NameError` (the following line referencing `compute_theta_estimates` is
never reached). -/
def fit (m : LDAModel) (assign : String → List ℕ) (u : ℕ → ℚ)
    (alpha beta : ℚ) (niter : ℕ) :
    Except String ((String → List ℕ) × List (List ℚ) × List (List ℚ)) :=
  match runSweeps m.W m.K alpha beta u m.iden_to_tokens niter 0
      (init_topics m.iden_to_tokens assign) with
  | Except.error e => Except.error e
  | Except.ok (s, _) =>
    let _document_word_topics := compute_MC_topic_approx s.mc
    Except.error nameErrorMsg

/-- Insertion step of a stable insertion sort. -/
def insertByLe (le : ℕ → ℕ → Bool) (x : ℕ) : List ℕ → List ℕ
  | [] => [x]
  | y :: ys => if le x y then x :: y :: ys else y :: insertByLe le x ys

/-- Stable insertion sort (ties keep their original relative order). -/
def sortByLe (le : ℕ → ℕ → Bool) (l : List ℕ) : List ℕ :=
  l.foldr (insertByLe le) []

/-- `np.argsort(row)`: the indices of `row` sorted by ascending value
(stable on ties, matching the observed behaviour on constant rows). -/
def argsortAsc (row : List ℚ) : List ℕ :=
  sortByLe (fun i j => decide (row.getD i 0 ≤ row.getD j 0))
    (List.range row.length)

/-- `LatentDirichletAllocation.get_top_n_words(n)` (the `return_probs=False`
branch): for each row of `self.phi_matrix`, reverse-argsort it, take the
first `n` indices and look up the words; no precondition is checked. -/
def get_top_n_words (m : LDAModel) (n : ℕ) : List (ℕ × List String) :=
  (List.range m.phi_matrix.length).map (fun k =>
    let row := m.phi_matrix.getD k []
    let top_n_idx := (argsortAsc row).reverse.take n
    (k + 1, top_n_idx.map (fun i => m.vocabulary.getD i noWord)))

/-- Is an `Except` value a success? -/
def isOkExcept {ε α : Type} : Except ε α → Bool
  | Except.ok _ => true
  | Except.error _ => false

/-- The topic labels `1, ..., K` (`range(1, K + 1)` in the source). -/
def topicRange (K : ℕ) : List ℕ :=
  (List.range K).map (· + 1)

/-- The unnormalized density exactly as the spec words it: read the three
counts, subtract one from each precisely when `k` equals the current topic
`c`, then form `(N_kj + alpha) * ((N_wk + beta) / (N_k + W * beta))`. -/
def specDensity (cnt : Counts) (W : ℕ) (alpha beta : ℚ) (doc word : String)
    (c k : ℕ) : ℚ :=
  let N_kj : ℤ := cnt.document_topic_counts doc k - (if k = c then 1 else 0)
  let N_wk : ℤ := cnt.word_topic_counts word k - (if k = c then 1 else 0)
  let N_k : ℤ := cnt.total_topic_counts k - (if k = c then 1 else 0)
  ((N_kj : ℚ) + alpha) * (((N_wk : ℚ) + beta) / ((N_k : ℚ) + (W : ℚ) * beta))

/-- The four count invariants of the spec: per-document sums are document
lengths, per-word sums are corpus occurrence counts, per-topic sums of
word-topic counts are the total-topic counts, and the total-topic counts
sum to the corpus token count. -/
def CountInvariant (corpus : Corpus) (vocab : List String) (K : ℕ)
    (cnt : Counts) : Prop :=
  (∀ p ∈ corpus,
      ((topicRange K).map (fun k => cnt.document_topic_counts p.1 k)).sum
        = (p.2.length : ℤ)) ∧
  (∀ w : String,
      ((topicRange K).map (fun k => cnt.word_topic_counts w k)).sum
        = (corpus.map (fun p => (p.2.count w : ℤ))).sum) ∧
  (∀ k ∈ topicRange K,
      (vocab.map (fun w => cnt.word_topic_counts w k)).sum
        = cnt.total_topic_counts k) ∧
  ((topicRange K).map cnt.total_topic_counts).sum
    = (corpus.map (fun p => (p.2.length : ℤ))).sum

/-- The current topic of every occurrence of a document: the last element
of each chain. -/
def currAssign (mc : String → List (List ℕ)) (d : String) : List ℕ :=
  (mc d).map (fun ch => (ch.getLast?).getD 0)

/-- Consistency of a sampler state with the corpus: chains are aligned with
the documents, never empty, carry topics in `[1, K]`, and the three count
tables are exactly the counting statistics of the current (most recent)
assignment. -/
structure Consistent (corpus : Corpus) (K : ℕ) (s : SamplerState) : Prop where
  len : ∀ p ∈ corpus, (s.mc p.1).length = p.2.length
  nonnil : ∀ d : String, ∀ ch ∈ s.mc d, ch ≠ []
  inRange : ∀ d : String, ∀ ch ∈ s.mc d, ∀ t ∈ ch, t ∈ topicRange K
  outside : ∀ d : String, d ∉ corpus.map Prod.fst → s.mc d = []
  docCnt : ∀ (d : String) (k : ℕ),
    s.cnt.document_topic_counts d k = ((currAssign s.mc d).count k : ℤ)
  wordCnt : ∀ (w : String) (k : ℕ),
    s.cnt.word_topic_counts w k
      = (corpus.map
          (fun p => ((p.2.zip (currAssign s.mc p.1)).count (w, k) : ℤ))).sum
  totCnt : ∀ k : ℕ,
    s.cnt.total_topic_counts k
      = (corpus.map (fun p => ((currAssign s.mc p.1).count k : ℤ))).sum

/-- A token descriptor `(doc, word, i)` that genuinely points at position
`i` of document `doc` in the corpus. -/
def ValidTok (corpus : Corpus) (tk : String × String × ℕ) : Prop :=
  ∃ ws, (tk.1, ws) ∈ corpus ∧ tk.2.2 < ws.length ∧
    ws.getD tk.2.2 noWord = tk.2.1

/- Concrete instances used to witness the theorems below (the corpus is the
scenario of the spec). -/

def docD1 : String := "d1"
def docD2 : String := "d2"
def tokA : String := "a"
def tokB : String := "b"

def corpus10 : Corpus := [(docD1, [tokA, tokB, tokA]), (docD2, [tokB, tokB])]

def assign10 : String → List ℕ := fun d => if d = docD1 then [1, 2, 1] else [2, 2]

def m10 : LDAModel :=
  { iden_to_tokens := corpus10
    K := 2
    alpha := 1/10
    beta := 1/10
    vocabulary := [tokA, tokB]
    W := 2
    theta_matrix := [[0, 0], [0, 0]]
    phi_matrix := [[0, 0], [0, 0]] }

/-- A one-document, one-topic state whose draw necessarily returns the
current topic (used to witness the self-transition claim). -/
def s4 : SamplerState :=
  { mc := fun d => if d = docD1 then [[1]] else []
    cnt :=
      { document_topic_counts := fun d k => if d = docD1 ∧ k = 1 then 1 else 0
        word_topic_counts := fun w k => if w = tokA ∧ k = 1 then 1 else 0
        total_topic_counts := fun k => if k = 1 then 1 else 0 } }

/-- A corrupted all-zero state evaluated with zero hyperparameters, whose
density vector is entirely non-positive. -/
def s7 : SamplerState :=
  { mc := fun _ => []
    cnt :=
      { document_topic_counts := fun _ _ => 0
        word_topic_counts := fun _ _ => 0
        total_topic_counts := fun _ => 0 } }

/-- A one-document chain table with a tied topic history (used to witness
the mode claim). -/
def mc5 : String → List (List ℕ) :=
  fun d => if d = docD1 then [[1, 2, 2, 1]] else []

/-- The scenario model constructed with integer hyperparameters (used to
witness the fit claim). -/
def mA : LDAModel :=
  { iden_to_tokens := corpus10
    K := 2
    alpha := 1
    beta := 1
    vocabulary := [tokA, tokB]
    W := 2
    theta_matrix := [[0, 0], [0, 0]]
    phi_matrix := [[0, 0], [0, 0]] }

/-! General helper lemmas about list sums, counts and the mode scan. -/

lemma sum_map_add {α : Type} (f g : α → ℤ) (l : List α) :
    (l.map (fun x => f x + g x)).sum = (l.map f).sum + (l.map g).sum := by
  induction l with
  | nil => simp
  | cons a t ih => simp only [List.map_cons, List.sum_cons, ih]; ring

lemma sum_map_sub_add {α : Type} (l : List α) (f g h : α → ℤ) :
    (l.map (fun k => f k - g k + h k)).sum
      = (l.map f).sum - (l.map g).sum + (l.map h).sum := by
  induction l with
  | nil => simp
  | cons a t ih => simp only [List.map_cons, List.sum_cons, ih]; ring

lemma sum_map_indicator {α : Type} [DecidableEq α] (ks : List α)
    (hnd : ks.Nodup) (c : α) :
    (ks.map (fun k => if k = c then (1 : ℤ) else 0)).sum
      = if c ∈ ks then 1 else 0 := by
  induction ks with
  | nil => simp
  | cons a t ih =>
    rcases List.nodup_cons.mp hnd with ⟨ha, ht⟩
    rcases eq_or_ne a c with h | h
    · subst h
      simp [ih ht, ha]
    · simp only [List.map_cons, List.sum_cons, if_neg h, ih ht, List.mem_cons]
      have : ¬c = a := fun hh => h hh.symm
      simp [this]

lemma sum_map_indicator_and {α : Type} [DecidableEq α] (ks : List α)
    (hnd : ks.Nodup) (P : Prop) [Decidable P] (c : α) :
    (ks.map (fun k => if P ∧ k = c then (1 : ℤ) else 0)).sum
      = if P ∧ c ∈ ks then 1 else 0 := by
  by_cases hP : P
  · simp only [hP, true_and]
    exact sum_map_indicator ks hnd c
  · simp [hP]

lemma sum_count_eq_length (ks : List ℕ) (hnd : ks.Nodup) :
    ∀ (l : List ℕ), (∀ x ∈ l, x ∈ ks) →
      (ks.map (fun k => (l.count k : ℤ))).sum = (l.length : ℤ) := by
  intro l
  induction l with
  | nil => simp
  | cons a t ih =>
    intro h
    have h1 : ∀ x ∈ t, x ∈ ks := fun x hx => h x (List.mem_cons_of_mem _ hx)
    have hstep : (ks.map (fun k => ((a :: t).count k : ℤ))).sum
        = (ks.map (fun k => (t.count k : ℤ) + (if k = a then 1 else 0))).sum := by
      apply congrArg
      apply List.map_congr_left
      intro k _
      rw [List.count_cons]
      rcases eq_or_ne k a with hk | hk
      · subst hk; simp
      · have : ¬a = k := fun hh => hk hh.symm
        simp [hk, this]
    rw [hstep, sum_map_add, ih h1, sum_map_indicator ks hnd a,
      if_pos (h a (List.mem_cons_self a t))]
    simp only [List.length_cons]
    push_cast
    ring

lemma count_zip_cons_int (w0 w : String) (t0 k : ℕ) (rest : List (String × ℕ)) :
    ((((w0, t0) :: rest).count (w, k) : ℕ) : ℤ)
      = (rest.count (w, k) : ℤ) + (if w0 = w ∧ k = t0 then 1 else 0) := by
  rw [List.count_cons]
  by_cases h1 : w0 = w
  · by_cases h2 : k = t0
    · subst h1; subst h2; simp
    · have h3 : ¬t0 = k := fun hh => h2 hh.symm
      simp [h1, h2, h3, Prod.ext_iff]
  · simp [h1, Prod.ext_iff]

lemma count_zip_cons_int2 (w0 w : String) (t0 k : ℕ) (rest : List (String × ℕ)) :
    ((((w0, t0) :: rest).count (w, k) : ℕ) : ℤ)
      = (rest.count (w, k) : ℤ) + (if k = t0 ∧ w = w0 then 1 else 0) := by
  rw [count_zip_cons_int]
  have h : (w0 = w ∧ k = t0) ↔ (k = t0 ∧ w = w0) := by
    constructor
    · rintro ⟨a, b⟩; exact ⟨b, a.symm⟩
    · rintro ⟨a, b⟩; exact ⟨b.symm, a⟩
  simp only [h]

lemma sum_count_zip_eq_count (ks : List ℕ) (hnd : ks.Nodup) (w : String) :
    ∀ (ws : List String) (ts : List ℕ), ws.length = ts.length →
      (∀ t ∈ ts, t ∈ ks) →
      (ks.map (fun k => ((ws.zip ts).count (w, k) : ℤ))).sum
        = (ws.count w : ℤ) := by
  intro ws
  induction ws with
  | nil => intro ts _ _; simp
  | cons w0 ws2 ih =>
    intro ts hlen hmem
    cases ts with
    | nil => simp at hlen
    | cons t0 ts2 =>
      have hlen2 : ws2.length = ts2.length := by simpa using hlen
      have hmem2 : ∀ t ∈ ts2, t ∈ ks :=
        fun t ht => hmem t (List.mem_cons_of_mem _ ht)
      have hstep : (ks.map (fun k => (((w0 :: ws2).zip (t0 :: ts2)).count (w, k) : ℤ))).sum
          = (ks.map (fun k => ((ws2.zip ts2).count (w, k) : ℤ)
              + (if w0 = w ∧ k = t0 then 1 else 0))).sum := by
        apply congrArg
        apply List.map_congr_left
        intro k _
        rw [List.zip_cons_cons]
        exact count_zip_cons_int w0 w t0 k (ws2.zip ts2)
      rw [hstep, sum_map_add, ih ts2 hlen2 hmem2,
        sum_map_indicator_and ks hnd (w0 = w) t0, List.count_cons]
      by_cases h1 : w0 = w
      · rw [if_pos ⟨h1, hmem t0 (List.mem_cons_self t0 ts2)⟩,
          if_pos (by simp [h1])]
        push_cast
        ring
      · rw [if_neg (fun hh => h1 hh.1), if_neg (by simp [h1])]
        push_cast
        ring

lemma sum_vocab_count_zip (vocab : List String) (hnd : vocab.Nodup) (k : ℕ) :
    ∀ (ws : List String) (ts : List ℕ), ws.length = ts.length →
      (∀ w ∈ ws, w ∈ vocab) →
      (vocab.map (fun w => ((ws.zip ts).count (w, k) : ℤ))).sum
        = (ts.count k : ℤ) := by
  intro ws
  induction ws with
  | nil =>
    intro ts hlen _
    have hts : ts = [] := by
      cases ts with
      | nil => rfl
      | cons a b => simp at hlen
    subst hts
    simp
  | cons w0 ws2 ih =>
    intro ts hlen hmem
    cases ts with
    | nil => simp at hlen
    | cons t0 ts2 =>
      have hlen2 : ws2.length = ts2.length := by simpa using hlen
      have hmem2 : ∀ w ∈ ws2, w ∈ vocab :=
        fun w hw => hmem w (List.mem_cons_of_mem _ hw)
      have hstep : (vocab.map (fun w => (((w0 :: ws2).zip (t0 :: ts2)).count (w, k) : ℤ))).sum
          = (vocab.map (fun w => ((ws2.zip ts2).count (w, k) : ℤ)
              + (if k = t0 ∧ w = w0 then 1 else 0))).sum := by
        apply congrArg
        apply List.map_congr_left
        intro w _
        rw [List.zip_cons_cons]
        exact count_zip_cons_int2 w0 w t0 k (ws2.zip ts2)
      rw [hstep, sum_map_add, ih ts2 hlen2 hmem2,
        sum_map_indicator_and vocab hnd (k = t0) w0, List.count_cons]
      by_cases h1 : k = t0
      · rw [if_pos ⟨h1, hmem w0 (List.mem_cons_self w0 ws2)⟩,
          if_pos (by simp [h1.symm])]
        push_cast
        ring
      · rw [if_neg (fun hh => h1 hh.1), if_neg (by simp; omega)]
        push_cast
        ring

lemma sum_map_swap {α β : Type} (f : α → β → ℤ) (l1 : List α) (l2 : List β) :
    (l1.map (fun a => (l2.map (f a)).sum)).sum
      = (l2.map (fun b => (l1.map (fun a => f a b)).sum)).sum := by
  induction l1 with
  | nil => simp
  | cons a t ih =>
    simp only [List.map_cons, List.sum_cons, ih]
    rw [← sum_map_add]

lemma topicRange_nodup (K : ℕ) : (topicRange K).Nodup := by
  apply List.Nodup.map
  · intro a b hab
    simpa using hab
  · exact List.nodup_range K

lemma mem_topicRange {K k : ℕ} : k ∈ topicRange K ↔ 1 ≤ k ∧ k ≤ K := by
  constructor
  · intro h
    rcases List.mem_map.mp h with ⟨a, ha, rfl⟩
    have := List.mem_range.mp ha
    omega
  · intro ⟨h1, h2⟩
    exact List.mem_map.mpr ⟨k - 1, List.mem_range.mpr (by omega), by omega⟩

lemma modeStep_facts (l : List ℕ) (acc x : ℕ) :
    (modeStep l acc x = acc ∨ modeStep l acc x = x) ∧
    l.count acc ≤ l.count (modeStep l acc x) ∧
    (l.count acc = l.count (modeStep l acc x) → modeStep l acc x ≤ acc) ∧
    l.count x ≤ l.count (modeStep l acc x) ∧
    (l.count x = l.count (modeStep l acc x) → modeStep l acc x ≤ x) := by
  unfold modeStep
  split
  · next h =>
    refine ⟨Or.inr rfl, by omega, by omega, le_refl _, fun _ => le_refl _⟩
  · next h =>
    push_neg at h
    obtain ⟨h1, h2⟩ := h
    refine ⟨Or.inl rfl, le_refl _, fun _ => le_refl _, by omega, by omega⟩

lemma foldl_modeStep (l : List ℕ) (todo : List ℕ) :
    ∀ acc : ℕ,
      (todo.foldl (modeStep l) acc = acc ∨ todo.foldl (modeStep l) acc ∈ todo) ∧
      (∀ y ∈ todo,
        l.count y ≤ l.count (todo.foldl (modeStep l) acc) ∧
          (l.count y = l.count (todo.foldl (modeStep l) acc) →
            todo.foldl (modeStep l) acc ≤ y)) ∧
      l.count acc ≤ l.count (todo.foldl (modeStep l) acc) ∧
      (l.count acc = l.count (todo.foldl (modeStep l) acc) →
        todo.foldl (modeStep l) acc ≤ acc) := by
  induction todo with
  | nil => intro acc; simp
  | cons x td ih =>
    intro acc
    simp only [List.foldl_cons]
    obtain ⟨hmem, hall, hle, htie⟩ := ih (modeStep l acc x)
    obtain ⟨hor, ha1, ha2, hx1, hx2⟩ := modeStep_facts l acc x
    refine ⟨?_, ?_, ?_, ?_⟩
    · rcases hmem with h | h
      · rcases hor with h2 | h2
        · left; rw [h, h2]
        · right; rw [h, h2]; exact List.mem_cons_self x td
      · right; exact List.mem_cons_of_mem _ h
    · intro y hy
      rcases List.mem_cons.mp hy with rfl | hy2
      · refine ⟨le_trans hx1 hle, fun hcnt => ?_⟩
        have e2 : l.count (modeStep l acc y)
            = l.count (td.foldl (modeStep l) (modeStep l acc y)) := by omega
        have e3 : l.count y = l.count (modeStep l acc y) := by omega
        exact le_trans (htie e2) (hx2 e3)
      · exact hall y hy2
    · exact le_trans ha1 hle
    · intro hcnt
      have e2 : l.count (modeStep l acc x)
          = l.count (td.foldl (modeStep l) (modeStep l acc x)) := by omega
      have e3 : l.count acc = l.count (modeStep l acc x) := by omega
      exact le_trans (htie e2) (ha2 e3)

lemma listMode_spec (l : List ℕ) (hl : l ≠ []) :
    listMode l ∈ l ∧ (∀ y ∈ l, l.count y ≤ l.count (listMode l)) ∧
      (∀ y : ℕ, l.count y = l.count (listMode l) → listMode l ≤ y) := by
  cases l with
  | nil => exact absurd rfl hl
  | cons h t =>
    obtain ⟨hmem, hall, hle, htie⟩ := foldl_modeStep (h :: t) (h :: t) h
    have hdef : listMode (h :: t) = (h :: t).foldl (modeStep (h :: t)) h := rfl
    rw [hdef]
    refine ⟨?_, ?_, ?_⟩
    · rcases hmem with h2 | h2
      · rw [h2]; exact List.mem_cons_self h t
      · exact h2
    · intro y hy
      exact (hall y hy).1
    · intro y hcnt
      by_cases hy : y ∈ h :: t
      · exact (hall y hy).2 hcnt
      · exfalso
        have h0 : (h :: t).count y = 0 := List.count_eq_zero.mpr hy
        have hm : (h :: t).foldl (modeStep (h :: t)) h ∈ h :: t := by
          rcases hmem with h2 | h2
          · rw [h2]; exact List.mem_cons_self h t
          · exact h2
        have h1 : 0 < (h :: t).count ((h :: t).foldl (modeStep (h :: t)) h) :=
          List.count_pos_iff.mpr hm
        omega

lemma count_cons_int {α : Type} [DecidableEq α] (a c : α) (tl : List α) :
    ((a :: tl).count c : ℤ) = (tl.count c : ℤ) + (if a = c then 1 else 0) := by
  rw [List.count_cons]
  by_cases h : a = c
  · simp [h]
  · simp [h]

lemma count_set_int {α : Type} [DecidableEq α] :
    ∀ (l : List α) (i : ℕ) (v c d : α), i < l.length →
      ((l.set i v).count c : ℤ)
        = (l.count c : ℤ) - (if l.getD i d = c then 1 else 0)
          + (if v = c then 1 else 0) := by
  intro l
  induction l with
  | nil => intro i v c d h; simp at h
  | cons a tl ih =>
    intro i v c d h
    cases i with
    | zero =>
      simp only [List.set, List.getD_cons_zero]
      rw [count_cons_int, count_cons_int]
      split_ifs <;> omega
    | succ j =>
      have hj : j < tl.length := by simpa using h
      simp only [List.set, List.getD_cons_succ]
      rw [count_cons_int, count_cons_int, ih j v c d hj]
      ring

lemma zip_set_right {α β : Type} :
    ∀ (ws : List α) (ts : List β) (i : ℕ) (v : β) (d : α),
      i < ws.length → ws.length = ts.length →
      ws.zip (ts.set i v) = (ws.zip ts).set i (ws.getD i d, v) := by
  intro ws
  induction ws with
  | nil => intro ts i v d hi _; simp at hi
  | cons a tl ih =>
    intro ts i v d hi hlen
    cases ts with
    | nil => simp at hlen
    | cons b ts2 =>
      cases i with
      | zero => simp
      | succ j =>
        have hj : j < tl.length := by simpa using hi
        have hlen2 : tl.length = ts2.length := by simpa using hlen
        simp only [List.set, List.zip_cons_cons, List.getD_cons_succ]
        rw [ih ts2 j v d hj hlen2]
        rfl

lemma set_getD_self {α : Type} :
    ∀ (l : List α) (i : ℕ) (d : α), i < l.length → l.set i (l.getD i d) = l := by
  intro l
  induction l with
  | nil => intro i d h; simp at h
  | cons a tl ih =>
    intro i d h
    cases i with
    | zero => simp
    | succ j =>
      have hj : j < tl.length := by simpa using h
      simp only [List.set, List.getD_cons_succ]
      rw [ih j d hj]

lemma insertByLe_length (le : ℕ → ℕ → Bool) (x : ℕ) :
    ∀ l : List ℕ, (insertByLe le x l).length = l.length + 1 := by
  intro l
  induction l with
  | nil => rfl
  | cons y ys ih =>
    unfold insertByLe
    split
    · simp
    · simp [ih]

lemma sortByLe_length (le : ℕ → ℕ → Bool) (l : List ℕ) :
    (sortByLe le l).length = l.length := by
  induction l with
  | nil => rfl
  | cons a t ih =>
    unfold sortByLe at *
    simp [List.foldr_cons, insertByLe_length, ih]

lemma argsortAsc_length (row : List ℚ) : (argsortAsc row).length = row.length := by
  unfold argsortAsc
  rw [sortByLe_length, List.length_range]

lemma getD_range_map_succ (K idx : ℕ) (h : idx < K) :
    ((List.range K).map (· + 1)).getD idx 0 = idx + 1 := by
  rw [List.getD_eq_getElem _ _ (by simpa using h), List.getElem_map]
  simp

lemma weightsVec_length (cnt : Counts) (W K : ℕ) (alpha beta : ℚ)
    (doc word : String) (curr : ℕ) :
    (weightsVec cnt W K alpha beta doc word curr).length = K := by
  unfold weightsVec
  simp

lemma choices1_ok_of_pos (K : ℕ) (ws : List ℚ) (u : ℚ) (hpos : 0 < ws.sum) :
    ∃ t : ℕ, choices1 ((List.range K).map (· + 1)) ws u = Except.ok t := by
  unfold choices1
  rw [if_neg (not_le.mpr hpos)]
  exact ⟨_, rfl⟩

lemma choices1_ok_mem (K : ℕ) (ws : List ℚ) (u : ℚ) (t : ℕ)
    (hws : ws.length = K)
    (h : choices1 ((List.range K).map (· + 1)) ws u = Except.ok t) :
    t ∈ topicRange K := by
  unfold choices1 at h
  by_cases hsum : ws.sum ≤ 0
  · rw [if_pos hsum] at h
    exact absurd h (by simp)
  · rw [if_neg hsum] at h
    have hK : 1 ≤ K := by
      by_contra hK
      have hK0 : K = 0 := by omega
      subst hK0
      have hnil : ws = [] := List.length_eq_zero.mp hws
      subst hnil
      simp at hsum
    have hidx : (((cumsum ws).take ((((List.range K).map (· + 1))).length - 1)).countP
        (fun cw => cw ≤ u * ws.sum)) < K := by
      have h1 := List.countP_le_length
        (fun cw => decide (cw ≤ u * ws.sum))
        (l := (cumsum ws).take ((((List.range K).map (· + 1))).length - 1))
      have h2 : ((cumsum ws).take ((((List.range K).map (· + 1))).length - 1)).length
          ≤ (((List.range K).map (· + 1))).length - 1 := by
        rw [List.length_take]
        omega
      have h3 : (((List.range K).map (· + 1))).length = K := by simp
      omega
    rw [getD_range_map_succ K _ hidx] at h
    have ht : (((cumsum ws).take ((((List.range K).map (· + 1))).length - 1)).countP
        (fun cw => cw ≤ u * ws.sum)) + 1 = t := by
      injection h
    rw [← ht]
    exact mem_topicRange.mpr ⟨by omega, by omega⟩

lemma currAssign_getD (mc : String → List (List ℕ)) (d : String) (i : ℕ)
    (h : i < (mc d).length) :
    (currAssign mc d).getD i 0 = (((mc d).getD i []).getLast?).getD 0 := by
  unfold currAssign
  rw [List.getD_eq_getElem _ _ (by simpa using h), List.getD_eq_getElem _ _ h,
    List.getElem_map]

lemma currAssign_length (mc : String → List (List ℕ)) (d : String) :
    (currAssign mc d).length = (mc d).length := by
  unfold currAssign
  simp

lemma currAssign_appendTopic_self (mc : String → List (List ℕ)) (doc : String)
    (i t : ℕ) :
    currAssign (appendTopic mc doc i t) doc = (currAssign mc doc).set i t := by
  unfold currAssign appendTopic
  simp [List.map_set, List.getLast?_concat]

lemma currAssign_appendTopic_other (mc : String → List (List ℕ))
    (doc d : String) (i t : ℕ) (h : d ≠ doc) :
    currAssign (appendTopic mc doc i t) d = currAssign mc d := by
  unfold currAssign appendTopic
  simp [h]

lemma key_unique (corpus : Corpus) (hnd : (corpus.map Prod.fst).Nodup)
    (doc : String) (ws : List String) (hmem : (doc, ws) ∈ corpus) :
    ∀ p ∈ corpus, p.1 = doc → p = (doc, ws) := by
  induction corpus with
  | nil => intro p hp; simp at hp
  | cons q rest ih =>
    have hnd2 : (rest.map Prod.fst).Nodup := (List.nodup_cons.mp hnd).2
    have hq : q.1 ∉ rest.map Prod.fst := (List.nodup_cons.mp hnd).1
    intro p hp hpd
    rcases List.mem_cons.mp hp with rfl | hp2
    · rcases List.mem_cons.mp hmem with h | h
      · exact h.symm
      · exfalso
        apply hq
        rw [hpd]
        simpa using List.mem_map_of_mem Prod.fst h
    · rcases List.mem_cons.mp hmem with h | h
      · exfalso
        apply hq
        have hpmem : p.1 ∈ List.map Prod.fst rest :=
          List.mem_map_of_mem Prod.fst hp2
        rw [hpd] at hpmem
        rw [← h]
        simpa using hpmem
      · exact ih hnd2 h p hp2 hpd

lemma sum_map_update_single (corpus : Corpus)
    (hnd : (corpus.map Prod.fst).Nodup) (doc : String) (ws : List String)
    (hmem : (doc, ws) ∈ corpus) (f g : String × List String → ℤ) (d : ℤ)
    (hsame : ∀ p ∈ corpus, p.1 ≠ doc → g p = f p)
    (hdoc : g (doc, ws) = f (doc, ws) + d) :
    (corpus.map g).sum = (corpus.map f).sum + d := by
  induction corpus with
  | nil => simp at hmem
  | cons q rest ih =>
    have hnd2 : (rest.map Prod.fst).Nodup := (List.nodup_cons.mp hnd).2
    have hq : q.1 ∉ rest.map Prod.fst := (List.nodup_cons.mp hnd).1
    rcases List.mem_cons.mp hmem with h | h
    · subst h
      have hrest : ∀ p ∈ rest, g p = f p := by
        intro p hp
        apply hsame p (List.mem_cons_of_mem _ hp)
        intro hpd
        apply hq
        have hpmem : p.1 ∈ List.map Prod.fst rest :=
          List.mem_map_of_mem Prod.fst hp
        rw [hpd] at hpmem
        simpa using hpmem
      simp only [List.map_cons, List.sum_cons, hdoc,
        List.map_congr_left hrest]
      ring
    · have hne : q.1 ≠ doc := by
        intro hqd
        apply hq
        rw [hqd]
        simpa using List.mem_map_of_mem Prod.fst h
      have hsame2 : ∀ p ∈ rest, p.1 ≠ doc → g p = f p :=
        fun p hp => hsame p (List.mem_cons_of_mem _ hp)
      simp only [List.map_cons, List.sum_cons,
        hsame q (List.mem_cons_self q rest) hne,
        ih hnd2 h hsame2]
      ring

lemma word_mem_vocab (corpus : Corpus) (ws : List String) (w : String)
    (hws : (ws : List String) ∈ corpus.map Prod.snd) (hw : w ∈ ws) :
    w ∈ get_unique_words (corpus.map Prod.snd) := by
  unfold get_unique_words
  rw [List.mem_dedup]
  exact List.mem_flatten.mpr ⟨ws, hws, hw⟩

lemma sum_nonpos_list : ∀ l : List ℚ, (∀ x ∈ l, x ≤ 0) → l.sum ≤ 0 := by
  intro l
  induction l with
  | nil => intro _; simp
  | cons a t ih =>
    intro h
    have h1 : a ≤ 0 := h a (List.mem_cons_self a t)
    have h2 : t.sum ≤ 0 := ih (fun x hx => h x (List.mem_cons_of_mem _ hx))
    simp only [List.sum_cons]
    linarith

lemma get_top_n_words_map_fst (m : LDAModel) (n : ℕ) :
    (get_top_n_words m n).map Prod.fst
      = (List.range m.phi_matrix.length).map (· + 1) := by
  unfold get_top_n_words
  rw [List.map_map]
  apply List.map_congr_left
  intro a _
  rfl

lemma get_top_n_words_entry_len (m : LDAModel) (n : ℕ)
    (hrows : ∀ row ∈ m.phi_matrix, row.length = m.W) :
    ∀ e ∈ get_top_n_words m n, e.2.length = min n m.W := by
  intro e he
  unfold get_top_n_words at he
  rcases List.mem_map.mp he with ⟨k, hk, rfl⟩
  have hk2 : k < m.phi_matrix.length := List.mem_range.mp hk
  have hrow : (m.phi_matrix.getD k []).length = m.W := by
    apply hrows
    rw [List.getD_eq_getElem _ _ hk2]
    exact List.getElem_mem hk2
  simp only [List.length_map, List.length_take, List.length_reverse,
    argsortAsc_length, hrow]

lemma sum_nonneg_int : ∀ l : List ℤ, (∀ x ∈ l, 0 ≤ x) → 0 ≤ l.sum := by
  intro l
  induction l with
  | nil => intro _; simp
  | cons a t ih =>
    intro h
    have h1 : 0 ≤ a := h a (List.mem_cons_self a t)
    have h2 : 0 ≤ t.sum := ih (fun x hx => h x (List.mem_cons_of_mem _ hx))
    simp only [List.sum_cons]
    omega

lemma ite_eq_comm {α : Type} [DecidableEq α] (a b : α) (x y : ℤ) :
    (if a = b then x else y) = if b = a then x else y := by
  by_cases h : a = b
  · rw [if_pos h, if_pos h.symm]
  · rw [if_neg h, if_neg (fun hh => h hh.symm)]

lemma ite_pair_eq (a w : String) (b k : ℕ) (x y : ℤ) :
    (if (a, b) = (w, k) then x else y) = if w = a ∧ k = b then x else y := by
  by_cases h1 : w = a
  · by_cases h2 : k = b
    · subst h1
      subst h2
      simp
    · subst h1
      rw [if_neg (fun hh => h2 (congrArg Prod.snd hh).symm),
        if_neg (fun hh => h2 hh.2)]
  · rw [if_neg (fun hh => h1 (congrArg Prod.fst hh).symm),
      if_neg (fun hh => h1 hh.1)]

lemma count_cons_pair_int (a c : String × ℕ) (tl : List (String × ℕ)) :
    ((a :: tl).count c : ℤ) = (tl.count c : ℤ) + (if a = c then 1 else 0) := by
  rw [List.count_cons]
  by_cases h : a = c
  · simp [h]
  · simp [h]

lemma count_set_pair_int :
    ∀ (l : List (String × ℕ)) (i : ℕ) (v c d : String × ℕ), i < l.length →
      ((l.set i v).count c : ℤ)
        = (l.count c : ℤ) - (if l.getD i d = c then 1 else 0)
          + (if v = c then 1 else 0) := by
  intro l
  induction l with
  | nil => intro i v c d h; simp at h
  | cons a tl ih =>
    intro i v c d h
    cases i with
    | zero =>
      simp only [List.set, List.getD_cons_zero]
      rw [count_cons_pair_int, count_cons_pair_int]
      split_ifs <;> omega
    | succ j =>
      have hj : j < tl.length := by simpa using h
      simp only [List.set, List.getD_cons_succ]
      rw [count_cons_pair_int, count_cons_pair_int, ih j v c d hj]
      ring

lemma appendTopic_self (mc : String → List (List ℕ)) (doc : String)
    (i t : ℕ) :
    appendTopic mc doc i t doc = (mc doc).set i ((mc doc).getD i [] ++ [t]) := by
  unfold appendTopic
  simp

lemma appendTopic_other (mc : String → List (List ℕ)) (doc d : String)
    (i t : ℕ) (h : d ≠ doc) : appendTopic mc doc i t d = mc d := by
  unfold appendTopic
  simp [h]

lemma densities_pos (cnt : Counts) (W : ℕ) (alpha beta : ℚ)
    (doc word : String) (curr k : ℕ)
    (ha : 0 < alpha) (hb : 0 < beta) (hW : 1 ≤ W)
    (hdk : 0 ≤ cnt.document_topic_counts doc k)
    (hwk : 0 ≤ cnt.word_topic_counts word k)
    (htk : 0 ≤ cnt.total_topic_counts k)
    (hdc : curr = k → 1 ≤ cnt.document_topic_counts doc k)
    (hwc : curr = k → 1 ≤ cnt.word_topic_counts word k)
    (htc : curr = k → 1 ≤ cnt.total_topic_counts k) :
    0 < densities cnt W alpha beta doc word curr k := by
  have hWq : (1 : ℚ) ≤ (W : ℚ) := by exact_mod_cast hW
  have hWb : 0 < (W : ℚ) * beta := by nlinarith
  simp only [densities]
  set A : ℤ := if curr = k then cnt.document_topic_counts doc k - 1
    else cnt.document_topic_counts doc k with hAdef
  set B : ℤ := if curr = k then cnt.word_topic_counts word k - 1
    else cnt.word_topic_counts word k with hBdef
  set C : ℤ := if curr = k then cnt.total_topic_counts k - 1
    else cnt.total_topic_counts k with hCdef
  have hA : 0 ≤ A := by
    rw [hAdef]
    by_cases h : curr = k
    · rw [if_pos h]
      have := hdc h
      omega
    · rw [if_neg h]
      exact hdk
  have hB : 0 ≤ B := by
    rw [hBdef]
    by_cases h : curr = k
    · rw [if_pos h]
      have := hwc h
      omega
    · rw [if_neg h]
      exact hwk
  have hC : 0 ≤ C := by
    rw [hCdef]
    by_cases h : curr = k
    · rw [if_pos h]
      have := htc h
      omega
    · rw [if_neg h]
      exact htk
  have hAq : (0 : ℚ) ≤ (A : ℚ) := by exact_mod_cast hA
  have hBq : (0 : ℚ) ≤ (B : ℚ) := by exact_mod_cast hB
  have hCq : (0 : ℚ) ≤ (C : ℚ) := by exact_mod_cast hC
  apply mul_pos (by linarith)
  apply div_pos (by linarith)
  linarith

lemma consistent_basic_facts (corpus : Corpus) (K : ℕ) (doc : String)
    (ws : List String) (i : ℕ) (hmem : (doc, ws) ∈ corpus)
    (hi : i < ws.length) (s : SamplerState) (hcons : Consistent corpus K s) :
    i < (s.mc doc).length ∧
    (s.mc doc).getD i [] ≠ [] ∧
    currentTopicAt s doc i ∈ topicRange K ∧
    i < (currAssign s.mc doc).length ∧
    (currAssign s.mc doc).getD i 0 = currentTopicAt s doc i ∧
    currentTopicAt s doc i ∈ currAssign s.mc doc := by
  have hlenmc : (s.mc doc).length = ws.length := hcons.len (doc, ws) hmem
  have hi2 : i < (s.mc doc).length := by omega
  have hchmem : (s.mc doc).getD i [] ∈ s.mc doc := by
    rw [List.getD_eq_getElem _ _ hi2]
    exact List.getElem_mem hi2
  have hchne : (s.mc doc).getD i [] ≠ [] := hcons.nonnil doc _ hchmem
  have hcurr_eq : currentTopicAt s doc i
      = ((s.mc doc).getD i []).getLast hchne := by
    unfold currentTopicAt
    rw [List.getLast?_eq_getLast _ hchne]
    rfl
  have hcurr_chain : currentTopicAt s doc i ∈ (s.mc doc).getD i [] := by
    rw [hcurr_eq]
    exact List.getLast_mem hchne
  have hcurrRange : currentTopicAt s doc i ∈ topicRange K :=
    hcons.inRange doc _ hchmem _ hcurr_chain
  have hiA : i < (currAssign s.mc doc).length := by
    rw [currAssign_length]
    omega
  have hcurrA : (currAssign s.mc doc).getD i 0 = currentTopicAt s doc i := by
    rw [currAssign_getD s.mc doc i hi2]
    rfl
  have hcurrmemA : currentTopicAt s doc i ∈ currAssign s.mc doc := by
    rw [← hcurrA, List.getD_eq_getElem _ _ hiA]
    exact List.getElem_mem hiA
  exact ⟨hi2, hchne, hcurrRange, hiA, hcurrA, hcurrmemA⟩

lemma consistent_zip_mem (corpus : Corpus) (K : ℕ) (doc word : String)
    (ws : List String) (i : ℕ) (hmem : (doc, ws) ∈ corpus)
    (hi : i < ws.length) (hword : ws.getD i noWord = word)
    (s : SamplerState) (hcons : Consistent corpus K s) :
    (word, currentTopicAt s doc i) ∈ ws.zip (currAssign s.mc doc) := by
  obtain ⟨hi2, hchne, hcurrRange, hiA, hcurrA, hcurrmemA⟩ :=
    consistent_basic_facts corpus K doc ws i hmem hi s hcons
  have hlenA : (currAssign s.mc doc).length = ws.length := by
    rw [currAssign_length]
    exact hcons.len (doc, ws) hmem
  have hz : i < (ws.zip (currAssign s.mc doc)).length := by
    rw [List.length_zip, hlenA, Nat.min_self]
    exact hi
  have hget : (ws.zip (currAssign s.mc doc)).getD i (noWord, 0)
      = (word, currentTopicAt s doc i) := by
    rw [List.getD_eq_getElem _ _ hz, List.getElem_zip]
    have e1 : ws[i] = word := by
      rw [← List.getD_eq_getElem ws noWord hi]
      exact hword
    have e2 : (currAssign s.mc doc)[i] = currentTopicAt s doc i := by
      rw [← List.getD_eq_getElem _ 0 hiA]
      exact hcurrA
    rw [e1, e2]
  rw [← hget, List.getD_eq_getElem _ _ hz]
  exact List.getElem_mem hz

lemma consistent_weights_pos (corpus : Corpus) (K W : ℕ) (alpha beta : ℚ)
    (doc word : String) (ws : List String) (i : ℕ)
    (ha : 0 < alpha) (hb : 0 < beta) (hW : 1 ≤ W)
    (hmem : (doc, ws) ∈ corpus) (hi : i < ws.length)
    (hword : ws.getD i noWord = word)
    (s : SamplerState) (hcons : Consistent corpus K s) :
    0 < (weightsVec s.cnt W K alpha beta doc word
      (currentTopicAt s doc i)).sum := by
  obtain ⟨hi2, hchne, hcurrRange, hiA, hcurrA, hcurrmemA⟩ :=
    consistent_basic_facts corpus K doc ws i hmem hi s hcons
  have hK : 1 ≤ K := by
    obtain ⟨hh1, hh2⟩ := mem_topicRange.mp hcurrRange
    omega
  have hdoc0 : ∀ k, 0 ≤ s.cnt.document_topic_counts doc k := by
    intro k
    rw [hcons.docCnt]
    exact Int.natCast_nonneg _
  have hdocpos : 1 ≤ s.cnt.document_topic_counts doc
      (currentTopicAt s doc i) := by
    rw [hcons.docCnt]
    have hp := List.count_pos_iff.mpr hcurrmemA
    exact_mod_cast hp
  have hword0 : ∀ k, 0 ≤ s.cnt.word_topic_counts word k := by
    intro k
    rw [hcons.wordCnt]
    apply sum_nonneg_int
    intro x hx
    rcases List.mem_map.mp hx with ⟨p, hp, rfl⟩
    exact Int.natCast_nonneg _
  have hzipmem := consistent_zip_mem corpus K doc word ws i hmem hi hword s hcons
  have hwordpos : 1 ≤ s.cnt.word_topic_counts word
      (currentTopicAt s doc i) := by
    rw [hcons.wordCnt]
    have hterm : (1 : ℤ) ≤ ((ws.zip (currAssign s.mc doc)).count
        (word, currentTopicAt s doc i) : ℤ) := by
      exact_mod_cast List.count_pos_iff.mpr hzipmem
    have hmem2 : ((ws.zip (currAssign s.mc doc)).count
        (word, currentTopicAt s doc i) : ℤ)
        ∈ corpus.map (fun p => ((p.2.zip (currAssign s.mc p.1)).count
            (word, currentTopicAt s doc i) : ℤ)) := by
      have hmm := List.mem_map_of_mem (fun p =>
        ((p.2.zip (currAssign s.mc p.1)).count
          (word, currentTopicAt s doc i) : ℤ)) hmem
      simpa using hmm
    have hnn : ∀ x ∈ corpus.map (fun p =>
        ((p.2.zip (currAssign s.mc p.1)).count
          (word, currentTopicAt s doc i) : ℤ)), 0 ≤ x := by
      intro x hx
      rcases List.mem_map.mp hx with ⟨p, hp, rfl⟩
      exact Int.natCast_nonneg _
    have hle := List.single_le_sum hnn _ hmem2
    omega
  have htot0 : ∀ k, 0 ≤ s.cnt.total_topic_counts k := by
    intro k
    rw [hcons.totCnt]
    apply sum_nonneg_int
    intro x hx
    rcases List.mem_map.mp hx with ⟨p, hp, rfl⟩
    exact Int.natCast_nonneg _
  have htotpos : 1 ≤ s.cnt.total_topic_counts (currentTopicAt s doc i) := by
    rw [hcons.totCnt]
    have hterm : (1 : ℤ) ≤ (((currAssign s.mc doc).count
        (currentTopicAt s doc i) : ℕ) : ℤ) := by
      exact_mod_cast List.count_pos_iff.mpr hcurrmemA
    have hmem2 : (((currAssign s.mc doc).count (currentTopicAt s doc i) : ℕ) : ℤ)
        ∈ corpus.map (fun p =>
          ((currAssign s.mc p.1).count (currentTopicAt s doc i) : ℤ)) := by
      have hmm := List.mem_map_of_mem (fun p =>
        ((currAssign s.mc p.1).count (currentTopicAt s doc i) : ℤ)) hmem
      simpa using hmm
    have hnn : ∀ x ∈ corpus.map (fun p =>
        ((currAssign s.mc p.1).count (currentTopicAt s doc i) : ℤ)), 0 ≤ x := by
      intro x hx
      rcases List.mem_map.mp hx with ⟨p, hp, rfl⟩
      exact Int.natCast_nonneg _
    have hle := List.single_le_sum hnn _ hmem2
    omega
  have hdens : ∀ k ∈ topicRange K,
      0 < densities s.cnt W alpha beta doc word (currentTopicAt s doc i) k := by
    intro k hk
    apply densities_pos s.cnt W alpha beta doc word (currentTopicAt s doc i) k
      ha hb hW (hdoc0 k) (hword0 k) (htot0 k)
    · intro hck
      rw [← hck]
      exact hdocpos
    · intro hck
      rw [← hck]
      exact hwordpos
    · intro hck
      rw [← hck]
      exact htotpos
  apply List.sum_pos
  · intro x hx
    unfold weightsVec at hx
    rcases List.mem_map.mp hx with ⟨j, hj, rfl⟩
    exact hdens (j + 1)
      (mem_topicRange.mpr ⟨by omega, by simpa using List.mem_range.mp hj⟩)
  · intro hnil
    have hlenw := weightsVec_length s.cnt W K alpha beta doc word
      (currentTopicAt s doc i)
    rw [hnil] at hlenw
    simp at hlenw
    omega

lemma token_step_consistent (corpus : Corpus) (K : ℕ) (doc word : String)
    (ws : List String) (i : ℕ)
    (hnd : (corpus.map Prod.fst).Nodup)
    (hmem : (doc, ws) ∈ corpus) (hi : i < ws.length)
    (hword : ws.getD i noWord = word)
    (s : SamplerState) (hcons : Consistent corpus K s)
    (nt : ℕ) (hnt : nt ∈ topicRange K) :
    Consistent corpus K
      { mc := appendTopic s.mc doc i nt
        cnt := if nt = currentTopicAt s doc i then s.cnt
          else updateCounts s.cnt doc word (currentTopicAt s doc i) nt } := by
  obtain ⟨hi2, hchne, hcurrRange, hiA, hcurrA, hcurrmemA⟩ :=
    consistent_basic_facts corpus K doc ws i hmem hi s hcons
  have hlenA : (currAssign s.mc doc).length = ws.length := by
    rw [currAssign_length]
    exact hcons.len (doc, ws) hmem
  have hlenApp : ∀ d : String,
      ((appendTopic s.mc doc i nt) d).length = (s.mc d).length := by
    intro d
    unfold appendTopic
    by_cases hd : d = doc
    · rw [if_pos hd, List.length_set]
    · rw [if_neg hd]
  have hCAdoc : currAssign (appendTopic s.mc doc i nt) doc
      = (currAssign s.mc doc).set i nt :=
    currAssign_appendTopic_self s.mc doc i nt
  have hCAother : ∀ d : String, d ≠ doc →
      currAssign (appendTopic s.mc doc i nt) d = currAssign s.mc d :=
    fun d hd => currAssign_appendTopic_other s.mc doc d i nt hd
  have hCAeq : nt = currentTopicAt s doc i → ∀ d : String,
      currAssign (appendTopic s.mc doc i nt) d = currAssign s.mc d := by
    intro hsame d
    by_cases hd : d = doc
    · subst hd
      rw [hCAdoc, hsame, ← hcurrA]
      exact set_getD_self _ i 0 hiA
    · exact hCAother d hd
  have hcount_doc : ∀ k : ℕ,
      ((currAssign (appendTopic s.mc doc i nt) doc).count k : ℤ)
        = ((currAssign s.mc doc).count k : ℤ)
          - (if currentTopicAt s doc i = k then 1 else 0)
          + (if nt = k then 1 else 0) := by
    intro k
    rw [hCAdoc, count_set_int (currAssign s.mc doc) i nt k 0 hiA, hcurrA]
  have hzip_doc : ws.zip (currAssign (appendTopic s.mc doc i nt) doc)
      = (ws.zip (currAssign s.mc doc)).set i (word, nt) := by
    rw [hCAdoc, zip_set_right ws (currAssign s.mc doc) i nt noWord hi
      hlenA.symm, hword]
  have hzlen : i < (ws.zip (currAssign s.mc doc)).length := by
    rw [List.length_zip, hlenA, Nat.min_self]
    exact hi
  have hzget : (ws.zip (currAssign s.mc doc)).getD i (noWord, 0)
      = (word, currentTopicAt s doc i) := by
    rw [List.getD_eq_getElem _ _ hzlen, List.getElem_zip]
    have e1 : ws[i] = word := by
      rw [← List.getD_eq_getElem ws noWord hi]
      exact hword
    have e2 : (currAssign s.mc doc)[i] = currentTopicAt s doc i := by
      rw [← List.getD_eq_getElem _ 0 hiA]
      exact hcurrA
    rw [e1, e2]
  have hcount_zip : ∀ (w : String) (k : ℕ),
      ((ws.zip (currAssign (appendTopic s.mc doc i nt) doc)).count (w, k) : ℤ)
        = ((ws.zip (currAssign s.mc doc)).count (w, k) : ℤ)
          - (if w = word ∧ k = currentTopicAt s doc i then 1 else 0)
          + (if w = word ∧ k = nt then 1 else 0) := by
    intro w k
    rw [hzip_doc,
      count_set_pair_int (ws.zip (currAssign s.mc doc)) i (word, nt) (w, k)
        (noWord, 0) hzlen,
      hzget, ite_pair_eq word w (currentTopicAt s doc i) k 1 0,
      ite_pair_eq word w nt k 1 0]
  refine ⟨?_, ?_, ?_, ?_, ?_, ?_, ?_⟩
  · intro p hp
    show ((appendTopic s.mc doc i nt) p.1).length = p.2.length
    rw [hlenApp p.1]
    exact hcons.len p hp
  · intro d ch hch
    have hch2 : ch ∈ appendTopic s.mc doc i nt d := hch
    by_cases hd : d = doc
    · rw [hd, appendTopic_self] at hch2
      rcases List.mem_or_eq_of_mem_set hch2 with h | h
      · exact hcons.nonnil doc ch h
      · rw [h]
        simp
    · rw [appendTopic_other s.mc doc d i nt hd] at hch2
      exact hcons.nonnil d ch hch2
  · intro d ch hch t ht
    have hch2 : ch ∈ appendTopic s.mc doc i nt d := hch
    by_cases hd : d = doc
    · rw [hd, appendTopic_self] at hch2
      rcases List.mem_or_eq_of_mem_set hch2 with h | h
      · exact hcons.inRange doc ch h t ht
      · rw [h] at ht
        rcases List.mem_append.mp ht with h2 | h2
        · have hchmem2 : (s.mc doc).getD i [] ∈ s.mc doc := by
            rw [List.getD_eq_getElem _ _ hi2]
            exact List.getElem_mem hi2
          exact hcons.inRange doc _ hchmem2 t h2
        · have ht2 : t = nt := by simpa using h2
          rw [ht2]
          exact hnt
    · rw [appendTopic_other s.mc doc d i nt hd] at hch2
      exact hcons.inRange d ch hch2 t ht
  · intro d hd
    have hddoc : d ≠ doc := by
      intro hh
      apply hd
      rw [hh]
      simpa using List.mem_map_of_mem Prod.fst hmem
    show appendTopic s.mc doc i nt d = []
    rw [appendTopic_other s.mc doc d i nt hddoc]
    exact hcons.outside d hd
  · intro d k
    by_cases hd : d = doc
    · by_cases hsame : nt = currentTopicAt s doc i
      · rw [if_pos hsame, hd]
        show s.cnt.document_topic_counts doc k
          = ((currAssign (appendTopic s.mc doc i nt) doc).count k : ℤ)
        rw [hcount_doc k, hcons.docCnt doc k, hsame]
        split_ifs <;> omega
      · rw [if_neg hsame, hd]
        show s.cnt.document_topic_counts doc k
            - (if doc = doc ∧ k = currentTopicAt s doc i then 1 else 0)
            + (if doc = doc ∧ k = nt then 1 else 0)
          = ((currAssign (appendTopic s.mc doc i nt) doc).count k : ℤ)
        have e1 : (if doc = doc ∧ k = currentTopicAt s doc i then (1 : ℤ) else 0)
            = if currentTopicAt s doc i = k then 1 else 0 := by
          by_cases h : k = currentTopicAt s doc i
          · rw [if_pos ⟨rfl, h⟩, if_pos h.symm]
          · rw [if_neg (fun hh => h hh.2), if_neg (fun hh => h hh.symm)]
        have e2 : (if doc = doc ∧ k = nt then (1 : ℤ) else 0)
            = if nt = k then 1 else 0 := by
          by_cases h : k = nt
          · rw [if_pos ⟨rfl, h⟩, if_pos h.symm]
          · rw [if_neg (fun hh => h hh.2), if_neg (fun hh => h hh.symm)]
        rw [e1, e2, hcount_doc k, hcons.docCnt doc k]
    · by_cases hsame : nt = currentTopicAt s doc i
      · rw [if_pos hsame]
        show s.cnt.document_topic_counts d k
          = ((currAssign (appendTopic s.mc doc i nt) d).count k : ℤ)
        rw [hCAother d hd, hcons.docCnt d k]
      · rw [if_neg hsame]
        show s.cnt.document_topic_counts d k
            - (if d = doc ∧ k = currentTopicAt s doc i then 1 else 0)
            + (if d = doc ∧ k = nt then 1 else 0)
          = ((currAssign (appendTopic s.mc doc i nt) d).count k : ℤ)
        rw [hCAother d hd, if_neg (fun hh => hd hh.1),
          if_neg (fun hh => hd hh.1), hcons.docCnt d k]
        ring
  · intro w k
    by_cases hsame : nt = currentTopicAt s doc i
    · rw [if_pos hsame]
      show s.cnt.word_topic_counts w k
        = (corpus.map (fun p =>
            ((p.2.zip (currAssign (appendTopic s.mc doc i nt) p.1)).count
              (w, k) : ℤ))).sum
      rw [hcons.wordCnt w k]
      apply congrArg
      apply List.map_congr_left
      intro p hp
      rw [hCAeq hsame p.1]
    · rw [if_neg hsame]
      show s.cnt.word_topic_counts w k
          - (if w = word ∧ k = currentTopicAt s doc i then 1 else 0)
          + (if w = word ∧ k = nt then 1 else 0)
        = (corpus.map (fun p =>
            ((p.2.zip (currAssign (appendTopic s.mc doc i nt) p.1)).count
              (w, k) : ℤ))).sum
      rw [hcons.wordCnt w k]
      have hupd := sum_map_update_single corpus hnd doc ws hmem
        (fun p => ((p.2.zip (currAssign s.mc p.1)).count (w, k) : ℤ))
        (fun p => ((p.2.zip (currAssign (appendTopic s.mc doc i nt) p.1)).count
          (w, k) : ℤ))
        (- (if w = word ∧ k = currentTopicAt s doc i then 1 else 0)
          + (if w = word ∧ k = nt then 1 else 0))
        (by
          intro p hp hpd
          show ((p.2.zip (currAssign (appendTopic s.mc doc i nt) p.1)).count
              (w, k) : ℤ)
            = ((p.2.zip (currAssign s.mc p.1)).count (w, k) : ℤ)
          rw [hCAother p.1 hpd])
        (by
          show ((ws.zip (currAssign (appendTopic s.mc doc i nt) doc)).count
              (w, k) : ℤ)
            = ((ws.zip (currAssign s.mc doc)).count (w, k) : ℤ)
              + (- (if w = word ∧ k = currentTopicAt s doc i then 1 else 0)
                + (if w = word ∧ k = nt then 1 else 0))
          rw [hcount_zip w k]
          ring)
      rw [hupd]
      ring
  · intro k
    by_cases hsame : nt = currentTopicAt s doc i
    · rw [if_pos hsame]
      show s.cnt.total_topic_counts k
        = (corpus.map (fun p =>
            ((currAssign (appendTopic s.mc doc i nt) p.1).count k : ℤ))).sum
      rw [hcons.totCnt k]
      apply congrArg
      apply List.map_congr_left
      intro p hp
      rw [hCAeq hsame p.1]
    · rw [if_neg hsame]
      show s.cnt.total_topic_counts k
          - (if k = currentTopicAt s doc i then 1 else 0)
          + (if k = nt then 1 else 0)
        = (corpus.map (fun p =>
            ((currAssign (appendTopic s.mc doc i nt) p.1).count k : ℤ))).sum
      rw [hcons.totCnt k]
      have hupd := sum_map_update_single corpus hnd doc ws hmem
        (fun p => ((currAssign s.mc p.1).count k : ℤ))
        (fun p => ((currAssign (appendTopic s.mc doc i nt) p.1).count k : ℤ))
        (- (if currentTopicAt s doc i = k then 1 else 0)
          + (if nt = k then 1 else 0))
        (by
          intro p hp hpd
          show ((currAssign (appendTopic s.mc doc i nt) p.1).count k : ℤ)
            = ((currAssign s.mc p.1).count k : ℤ)
          rw [hCAother p.1 hpd])
        (by
          show ((currAssign (appendTopic s.mc doc i nt) doc).count k : ℤ)
            = ((currAssign s.mc doc).count k : ℤ)
              + (- (if currentTopicAt s doc i = k then 1 else 0)
                + (if nt = k then 1 else 0))
          rw [hcount_doc k]
          ring)
      rw [hupd, ite_eq_comm k (currentTopicAt s doc i) 1 0, ite_eq_comm k nt 1 0]
      ring

lemma token_step_ok (corpus : Corpus) (K W : ℕ) (alpha beta : ℚ) (u : ℚ)
    (doc word : String) (ws : List String) (i : ℕ)
    (ha : 0 < alpha) (hb : 0 < beta) (hW : 1 ≤ W)
    (hnd : (corpus.map Prod.fst).Nodup)
    (hmem : (doc, ws) ∈ corpus) (hi : i < ws.length)
    (hword : ws.getD i noWord = word)
    (s : SamplerState) (hcons : Consistent corpus K s) :
    ∃ s2, token_step W K alpha beta doc word i u s = Except.ok s2 ∧
      Consistent corpus K s2 := by
  have hpos := consistent_weights_pos corpus K W alpha beta doc word ws i
    ha hb hW hmem hi hword s hcons
  obtain ⟨nt, hch⟩ := choices1_ok_of_pos K
    (weightsVec s.cnt W K alpha beta doc word (currentTopicAt s doc i)) u hpos
  have hnt : nt ∈ topicRange K := choices1_ok_mem K
    (weightsVec s.cnt W K alpha beta doc word (currentTopicAt s doc i)) u nt
    (weightsVec_length s.cnt W K alpha beta doc word (currentTopicAt s doc i))
    hch
  have hc2 := token_step_consistent corpus K doc word ws i hnd hmem hi hword
    s hcons nt hnt
  have hstep : token_step W K alpha beta doc word i u s
      = Except.ok { mc := appendTopic s.mc doc i nt
                    cnt := if nt = currentTopicAt s doc i then s.cnt
                      else updateCounts s.cnt doc word
                        (currentTopicAt s doc i) nt } := by
    unfold token_step
    rw [hch]
    show (if nt = currentTopicAt s doc i then
        Except.ok ({ mc := appendTopic s.mc doc i nt
                     cnt := s.cnt } : SamplerState)
      else Except.ok { mc := appendTopic s.mc doc i nt
                       cnt := updateCounts s.cnt doc word
                         (currentTopicAt s doc i) nt })
      = Except.ok { mc := appendTopic s.mc doc i nt
                    cnt := if nt = currentTopicAt s doc i then s.cnt
                      else updateCounts s.cnt doc word
                        (currentTopicAt s doc i) nt }
    by_cases hsame : nt = currentTopicAt s doc i
    · rw [if_pos hsame, if_pos hsame]
    · rw [if_neg hsame, if_neg hsame]
  exact ⟨_, hstep, hc2⟩

lemma tokenSeq_valid (corpus : Corpus) :
    ∀ tk ∈ tokenSeq corpus, ValidTok corpus tk := by
  intro tk htk
  unfold tokenSeq at htk
  rcases List.mem_flatMap.mp htk with ⟨p, hp, htk2⟩
  rcases List.mem_map.mp htk2 with ⟨j, hj, rfl⟩
  exact ⟨p.2, hp, List.mem_range.mp hj, rfl⟩

lemma runTokens_ok (corpus : Corpus) (K W : ℕ) (alpha beta : ℚ) (u : ℕ → ℚ)
    (ha : 0 < alpha) (hb : 0 < beta) (hW : 1 ≤ W)
    (hnd : (corpus.map Prod.fst).Nodup) :
    ∀ (toks : List (String × String × ℕ)) (n : ℕ) (s : SamplerState),
      (∀ tk ∈ toks, ValidTok corpus tk) → Consistent corpus K s →
      ∃ s2 n2, runTokens W K alpha beta u toks n s = Except.ok (s2, n2) ∧
        Consistent corpus K s2 := by
  intro toks
  induction toks with
  | nil =>
    intro n s _ hcons
    exact ⟨s, n, rfl, hcons⟩
  | cons tk rest ih =>
    intro n s hvalid hcons
    obtain ⟨ws, hmem, hi, hword⟩ := hvalid tk (List.mem_cons_self tk rest)
    obtain ⟨s2, hstep, hcons2⟩ := token_step_ok corpus K W alpha beta (u n)
      tk.1 tk.2.1 ws tk.2.2 ha hb hW hnd hmem hi hword s hcons
    obtain ⟨s3, n3, hrun, hcons3⟩ := ih (n + 1) s2
      (fun t ht => hvalid t (List.mem_cons_of_mem _ ht)) hcons2
    refine ⟨s3, n3, ?_, hcons3⟩
    unfold runTokens
    rw [hstep]
    exact hrun

lemma runSweeps_ok (corpus : Corpus) (K W : ℕ) (alpha beta : ℚ) (u : ℕ → ℚ)
    (ha : 0 < alpha) (hb : 0 < beta) (hW : 1 ≤ W)
    (hnd : (corpus.map Prod.fst).Nodup) :
    ∀ (niter n : ℕ) (s : SamplerState), Consistent corpus K s →
      ∃ s2 n2,
        runSweeps W K alpha beta u corpus niter n s = Except.ok (s2, n2) ∧
        Consistent corpus K s2 := by
  intro niter
  induction niter with
  | zero =>
    intro n s hcons
    exact ⟨s, n, rfl, hcons⟩
  | succ m ih =>
    intro n s hcons
    obtain ⟨s2, n2, hrun, hcons2⟩ := runTokens_ok corpus K W alpha beta u
      ha hb hW hnd (tokenSeq corpus) n s (tokenSeq_valid corpus) hcons
    obtain ⟨s3, n3, hsw, hcons3⟩ := ih n2 s2 hcons2
    refine ⟨s3, n3, ?_, hcons3⟩
    unfold runSweeps
    rw [hrun]
    exact hsw

lemma init_topics_consistent (corpus : Corpus) (K : ℕ)
    (assign : String → List ℕ)
    (hassign : ∀ p ∈ corpus, (assign p.1).length = p.2.length ∧
      ∀ t ∈ assign p.1, t ∈ topicRange K) :
    Consistent corpus K (init_topics corpus assign) := by
  have hCA : ∀ d : String, currAssign (init_topics corpus assign).mc d
      = assignFor corpus assign d := by
    intro d
    show currAssign (fun d2 => (assignFor corpus assign d2).map (fun t => [t])) d
      = assignFor corpus assign d
    unfold currAssign
    rw [List.map_map]
    have hid : ∀ l : List ℕ,
        l.map ((fun ch => (ch.getLast?).getD 0) ∘ fun t => [t]) = l := by
      intro l
      induction l with
      | nil => rfl
      | cons a t2 ih =>
        rw [List.map_cons, ih]
        rfl
    exact hid _
  refine ⟨?_, ?_, ?_, ?_, ?_, ?_, ?_⟩
  · intro p hp
    show ((assignFor corpus assign p.1).map (fun t => [t])).length = p.2.length
    rw [List.length_map]
    unfold assignFor
    rw [if_pos (List.mem_map_of_mem Prod.fst hp)]
    exact (hassign p hp).1
  · intro d ch hch
    have hch2 : ch ∈ (assignFor corpus assign d).map (fun t => [t]) := hch
    rcases List.mem_map.mp hch2 with ⟨t, ht, rfl⟩
    simp
  · intro d ch hch t ht
    have hch2 : ch ∈ (assignFor corpus assign d).map (fun t => [t]) := hch
    rcases List.mem_map.mp hch2 with ⟨t0, ht0, rfl⟩
    have ht2 : t = t0 := by simpa using ht
    rw [ht2]
    unfold assignFor at ht0
    by_cases hd : d ∈ corpus.map Prod.fst
    · rw [if_pos hd] at ht0
      rcases List.mem_map.mp hd with ⟨p, hp, hpd⟩
      have hpd2 : assign d = assign p.1 := by rw [hpd]
      rw [hpd2] at ht0
      exact (hassign p hp).2 t0 ht0
    · rw [if_neg hd] at ht0
      simp at ht0
  · intro d hd
    show (assignFor corpus assign d).map (fun t => [t]) = []
    unfold assignFor
    rw [if_neg hd]
    rfl
  · intro d k
    show ((assignFor corpus assign d).count k : ℤ)
      = ((currAssign (init_topics corpus assign).mc d).count k : ℤ)
    rw [hCA d]
  · intro w k
    show (corpus.map (fun p => ((p.2.zip (assign p.1)).count (w, k) : ℤ))).sum
      = (corpus.map (fun p =>
          ((p.2.zip (currAssign (init_topics corpus assign).mc p.1)).count
            (w, k) : ℤ))).sum
    apply congrArg
    apply List.map_congr_left
    intro p hp
    rw [hCA p.1]
    unfold assignFor
    rw [if_pos (List.mem_map_of_mem Prod.fst hp)]
  · intro k
    show (corpus.map (fun p => ((assign p.1).count k : ℤ))).sum
      = (corpus.map (fun p =>
          ((currAssign (init_topics corpus assign).mc p.1).count k : ℤ))).sum
    apply congrArg
    apply List.map_congr_left
    intro p hp
    rw [hCA p.1]
    unfold assignFor
    rw [if_pos (List.mem_map_of_mem Prod.fst hp)]

lemma init_topics_invariant (corpus : Corpus) (K : ℕ)
    (assign : String → List ℕ)
    (hassign : ∀ p ∈ corpus, (assign p.1).length = p.2.length ∧
      ∀ t ∈ assign p.1, t ∈ topicRange K) :
    CountInvariant corpus (get_unique_words (corpus.map Prod.snd)) K
      (init_topics corpus assign).cnt := by
  have hndK := topicRange_nodup K
  have hvnd : (get_unique_words (corpus.map Prod.snd)).Nodup := by
    unfold get_unique_words
    exact List.nodup_dedup _
  refine ⟨?_, ?_, ?_, ?_⟩
  · intro p hp
    have hkey : p.1 ∈ corpus.map Prod.fst := List.mem_map_of_mem Prod.fst hp
    have hAF : assignFor corpus assign p.1 = assign p.1 := by
      unfold assignFor
      rw [if_pos hkey]
    show ((topicRange K).map
        (fun k => ((assignFor corpus assign p.1).count k : ℤ))).sum
      = (p.2.length : ℤ)
    rw [hAF, sum_count_eq_length (topicRange K) hndK (assign p.1)
      (hassign p hp).2, (hassign p hp).1]
  · intro w
    show ((topicRange K).map (fun k =>
        (corpus.map (fun p => ((p.2.zip (assign p.1)).count (w, k) : ℤ))).sum)).sum
      = (corpus.map (fun p => (p.2.count w : ℤ))).sum
    rw [sum_map_swap (fun k p => ((p.2.zip (assign p.1)).count (w, k) : ℤ))
      (topicRange K) corpus]
    apply congrArg
    apply List.map_congr_left
    intro p hp
    exact sum_count_zip_eq_count (topicRange K) hndK w p.2 (assign p.1)
      (hassign p hp).1.symm (hassign p hp).2
  · intro k hk
    show ((get_unique_words (corpus.map Prod.snd)).map (fun w =>
        (corpus.map (fun p => ((p.2.zip (assign p.1)).count (w, k) : ℤ))).sum)).sum
      = (corpus.map (fun p => ((assign p.1).count k : ℤ))).sum
    rw [sum_map_swap (fun w p => ((p.2.zip (assign p.1)).count (w, k) : ℤ))
      (get_unique_words (corpus.map Prod.snd)) corpus]
    apply congrArg
    apply List.map_congr_left
    intro p hp
    exact sum_vocab_count_zip (get_unique_words (corpus.map Prod.snd)) hvnd k
      p.2 (assign p.1) (hassign p hp).1.symm
      (fun w hw => word_mem_vocab corpus p.2 w
        (List.mem_map_of_mem Prod.snd hp) hw)
  · show ((topicRange K).map (fun k =>
        (corpus.map (fun p => ((assign p.1).count k : ℤ))).sum)).sum
      = (corpus.map (fun p => (p.2.length : ℤ))).sum
    rw [sum_map_swap (fun k p => ((assign p.1).count k : ℤ))
      (topicRange K) corpus]
    apply congrArg
    apply List.map_congr_left
    intro p hp
    rw [sum_count_eq_length (topicRange K) hndK (assign p.1)
      (hassign p hp).2, (hassign p hp).1]

lemma updateCounts_invariant (corpus : Corpus) (vocab : List String) (K : ℕ)
    (cnt : Counts) (doc word : String) (c t : ℕ)
    (hc : c ∈ topicRange K) (ht : t ∈ topicRange K)
    (hw : word ∈ vocab) (hvnd : vocab.Nodup)
    (hinv : CountInvariant corpus vocab K cnt) :
    CountInvariant corpus vocab K (updateCounts cnt doc word c t) := by
  obtain ⟨h1, h2, h3, h4⟩ := hinv
  have hndK := topicRange_nodup K
  refine ⟨?_, ?_, ?_, ?_⟩
  · intro p hp
    show ((topicRange K).map (fun k =>
        cnt.document_topic_counts p.1 k
          - (if p.1 = doc ∧ k = c then 1 else 0)
          + (if p.1 = doc ∧ k = t then 1 else 0))).sum = (p.2.length : ℤ)
    rw [sum_map_sub_add, sum_map_indicator_and (topicRange K) hndK (p.1 = doc) c,
      sum_map_indicator_and (topicRange K) hndK (p.1 = doc) t, h1 p hp]
    by_cases hpd : p.1 = doc
    · rw [if_pos ⟨hpd, hc⟩, if_pos ⟨hpd, ht⟩]
      ring
    · rw [if_neg (fun hh => hpd hh.1), if_neg (fun hh => hpd hh.1)]
      ring
  · intro w
    show ((topicRange K).map (fun k =>
        cnt.word_topic_counts w k
          - (if w = word ∧ k = c then 1 else 0)
          + (if w = word ∧ k = t then 1 else 0))).sum
      = (corpus.map (fun p => (p.2.count w : ℤ))).sum
    rw [sum_map_sub_add, sum_map_indicator_and (topicRange K) hndK (w = word) c,
      sum_map_indicator_and (topicRange K) hndK (w = word) t, h2 w]
    by_cases hww : w = word
    · rw [if_pos ⟨hww, hc⟩, if_pos ⟨hww, ht⟩]
      ring
    · rw [if_neg (fun hh => hww hh.1), if_neg (fun hh => hww hh.1)]
      ring
  · intro k hk
    show (vocab.map (fun w =>
        cnt.word_topic_counts w k
          - (if w = word ∧ k = c then 1 else 0)
          + (if w = word ∧ k = t then 1 else 0))).sum
      = cnt.total_topic_counts k
          - (if k = c then 1 else 0) + (if k = t then 1 else 0)
    rw [sum_map_sub_add, h3 k hk]
    have hcomm : ∀ z : ℕ,
        (vocab.map (fun w => if w = word ∧ k = z then (1 : ℤ) else 0)).sum
          = if k = z then 1 else 0 := by
      intro z
      have hstep : (vocab.map (fun w => if w = word ∧ k = z then (1 : ℤ) else 0))
          = vocab.map (fun w => if k = z ∧ w = word then (1 : ℤ) else 0) := by
        apply List.map_congr_left
        intro w _
        by_cases ha : w = word <;> by_cases hb : k = z <;> simp [ha, hb]
      rw [hstep, sum_map_indicator_and vocab hvnd (k = z) word]
      by_cases hb : k = z
      · rw [if_pos ⟨hb, hw⟩, if_pos hb]
      · rw [if_neg (fun hh => hb hh.1), if_neg hb]
    rw [hcomm c, hcomm t]
  · show ((topicRange K).map (fun k =>
        cnt.total_topic_counts k
          - (if k = c then 1 else 0) + (if k = t then 1 else 0))).sum
      = (corpus.map (fun p => (p.2.length : ℤ))).sum
    rw [sum_map_sub_add, sum_map_indicator (topicRange K) hndK c,
      sum_map_indicator (topicRange K) hndK t, h4, if_pos hc, if_pos ht]
    ring

/-! Theorems settling the claims. -/

/-- C2: in each per-token resampling step, for every candidate topic `k`
the sampler reads `N_kj`, `N_wk`, `N_k` from the three count tables,
decrements each by exactly one before the density computation precisely
when `k` equals the current topic `c`, and assigns the unnormalized density
`(N_kj + alpha) * ((N_wk + beta) / (N_k + W * beta))`, with the `alpha` and
`beta` supplied at run time (`fit` threads its own arguments into
`densities`, never the constructor values). -/
theorem C2_density_formula (cnt : Counts) (W : ℕ) (alpha beta : ℚ)
    (doc word : String) (c k : ℕ) :
    densities cnt W alpha beta doc word c k
      = specDensity cnt W alpha beta doc word c k := by
  unfold densities specDensity
  rcases eq_or_ne c k with h | h
  · subst h
    simp
  · have h2 : ¬k = c := fun hh => h hh.symm
    simp [h, h2]

/-- C8 as amended: the constructor performs no validation at all of the
hyperparameters or the corpus; `K = 0`, `alpha ≤ 0`, `beta ≤ 0` and an
empty corpus are all accepted silently, and the only constructor-time
failure is `np.zeros` rejecting a negative dimension, i.e. construction
succeeds exactly when `K ≥ 0`. -/
theorem C8_no_validation (corpus : Corpus) (K : ℤ) (alpha beta : ℚ) :
    isOkExcept (lda_init corpus K alpha beta) = true ↔ 0 ≤ K := by
  unfold lda_init
  split
  · next h =>
    simp only [isOkExcept]
    constructor
    · intro hh; exact Bool.noConfusion hh
    · intro hh; omega
  · next h =>
    simp only [isOkExcept]
    constructor
    · intro _; omega
    · intro _; trivial

/-- C8 counterexample: constructing with an empty corpus, `K = 0`,
`alpha = -1` and `beta = -1` — violating every configuration condition of
the claim at once — succeeds without any error. -/
theorem C8_counterexample : isOkExcept (lda_init [] 0 (-1) (-1)) = true := rfl

/-- C1 (code bug): on the spec scenario corpus with valid hyperparameters,
`fit` does not return the documented triple; it raises `NameError` at the
estimation step, because `_compute_phi_estimates` is called as a free
function that does not exist at module scope. -/
theorem C1_fit_raises_name_error :
    lda_init corpus10 2 (1/10) (1/10) = Except.ok m10 ∧
    fit m10 assign10 (fun _ => 0) (1/10) (1/10) 0 = Except.error nameErrorMsg :=
  ⟨rfl, rfl⟩

/-- C9 counterexample: on a freshly constructed model (no run has
happened, `phi_matrix` is the constructor's all-zero matrix),
`get_top_n_words` does not raise an illegal-state error: it silently
returns one word per topic, computed from the zero matrix. -/
theorem C9_counterexample :
    lda_init corpus10 2 (1/10) (1/10) = Except.ok m10 ∧
    get_top_n_words m10 1 = [(1, [tokB]), (2, [tokB])] := ⟨rfl, rfl⟩

/-- C9 as amended: `get_top_n_words` performs no state check; called
before any run it silently computes its answer from the all-zero phi
matrix allocated by the constructor, returning one entry per topic with
`min n W` words each. -/
theorem C9_silent_results (corpus : Corpus) (Kz : ℤ) (alpha beta : ℚ)
    (m : LDAModel) (n : ℕ)
    (hinit : lda_init corpus Kz alpha beta = Except.ok m) :
    m.phi_matrix = zerosMatrix Kz.toNat m.W ∧
    (get_top_n_words m n).map Prod.fst = (List.range Kz.toNat).map (· + 1) ∧
    ∀ e ∈ get_top_n_words m n, e.2.length = min n m.W := by
  unfold lda_init at hinit
  by_cases hK : Kz < 0
  · rw [if_pos hK] at hinit
    exact absurd hinit (by simp)
  · rw [if_neg hK] at hinit
    injection hinit with hrec
    have hphi : m.phi_matrix = zerosMatrix Kz.toNat m.W := by
      rw [← hrec]
    have hlen : m.phi_matrix.length = Kz.toNat := by
      rw [hphi]
      unfold zerosMatrix
      exact List.length_replicate _ _
    have hrows : ∀ row ∈ m.phi_matrix, row.length = m.W := by
      rw [hphi]
      intro row hr
      unfold zerosMatrix at hr
      rw [List.eq_of_mem_replicate hr]
      exact List.length_replicate _ _
    exact ⟨hphi, by rw [get_top_n_words_map_fst, hlen],
      get_top_n_words_entry_len m n hrows⟩

/-- C9 witness: the amended statement holds on the scenario model. -/
theorem C9_silent_results_witness :
    lda_init corpus10 2 (1/10) (1/10) = Except.ok m10 ∧
    (m10.phi_matrix = zerosMatrix (Int.toNat 2) m10.W ∧
      (get_top_n_words m10 1).map Prod.fst
        = (List.range (Int.toNat 2)).map (· + 1) ∧
      ∀ e ∈ get_top_n_words m10 1, e.2.length = min 1 m10.W) :=
  ⟨rfl, C9_silent_results corpus10 2 (1/10) (1/10) m10 1 rfl⟩

/-- C7: if every candidate density of a token is non-positive, the
weighted categorical draw raises `ValueError`, the per-token step returns
that error, and the sweep aborts immediately with it (the remaining tokens
are not visited, nothing is retried, no uniform draw is substituted). -/
theorem C7_nonpositive_abort (W K : ℕ) (alpha beta : ℚ) (doc word : String)
    (i n : ℕ) (u : ℕ → ℚ) (s : SamplerState)
    (rest : List (String × String × ℕ))
    (hall : ∀ k ∈ topicRange K,
      densities s.cnt W alpha beta doc word (currentTopicAt s doc i) k ≤ 0) :
    token_step W K alpha beta doc word i (u n) s = Except.error totalWeightMsg ∧
    runTokens W K alpha beta u ((doc, word, i) :: rest) n s
      = Except.error totalWeightMsg := by
  have hsum : (weightsVec s.cnt W K alpha beta doc word
      (currentTopicAt s doc i)).sum ≤ 0 := by
    apply sum_nonpos_list
    intro x hx
    rcases List.mem_map.mp hx with ⟨j, hj, rfl⟩
    exact hall (j + 1)
      (mem_topicRange.mpr ⟨by omega, by simpa using List.mem_range.mp hj⟩)
  have h1 : token_step W K alpha beta doc word i (u n) s
      = Except.error totalWeightMsg := by
    unfold token_step choices1
    rw [if_pos hsum]
  exact ⟨h1, by simp [runTokens, h1]⟩

/-- C7 witness: an all-zero (corrupted) count state with zero
hyperparameters makes every density non-positive, and the step and the
sweep abort with the `ValueError`. -/
theorem C7_nonpositive_abort_witness :
    (∀ k ∈ topicRange 1,
      densities s7.cnt 1 0 0 docD1 tokA (currentTopicAt s7 docD1 0) k ≤ 0) ∧
    (token_step 1 1 0 0 docD1 tokA 0 ((fun _ => (0 : ℚ)) 0) s7
        = Except.error totalWeightMsg ∧
      runTokens 1 1 0 0 (fun _ => (0 : ℚ)) [(docD1, tokA, 0)] 0 s7
        = Except.error totalWeightMsg) := by
  have hall : ∀ k ∈ topicRange 1,
      densities s7.cnt 1 0 0 docD1 tokA (currentTopicAt s7 docD1 0) k ≤ 0 := by
    intro k hk
    obtain ⟨ha, hb⟩ := mem_topicRange.mp hk
    have hk1 : k = 1 := by omega
    subst hk1
    simp [densities, s7, currentTopicAt]
  exact ⟨hall,
    C7_nonpositive_abort 1 1 0 0 docD1 tokA 0 0 (fun _ => 0) s7 [] hall⟩

/-- C4: when the drawn topic equals the token's current topic, the step
leaves all three count tables exactly as they were; the only mutation is
appending the drawn topic to the occurrence's chain. -/
theorem C4_self_transition_noop (W K : ℕ) (alpha beta : ℚ) (doc word : String)
    (i : ℕ) (u : ℚ) (s : SamplerState)
    (hdraw : choices1 ((List.range K).map (· + 1))
        (weightsVec s.cnt W K alpha beta doc word (currentTopicAt s doc i)) u
      = Except.ok (currentTopicAt s doc i)) :
    token_step W K alpha beta doc word i u s
      = Except.ok { mc := appendTopic s.mc doc i (currentTopicAt s doc i)
                    cnt := s.cnt } := by
  unfold token_step
  rw [hdraw]
  simp

/-- C4 witness: a one-topic state draws its current topic again, and the
counts are untouched while the chain gains one element. -/
theorem C4_self_transition_noop_witness :
    choices1 ((List.range 1).map (· + 1))
        (weightsVec s4.cnt 1 1 1 1 docD1 tokA (currentTopicAt s4 docD1 0)) 0
      = Except.ok (currentTopicAt s4 docD1 0) ∧
    token_step 1 1 1 1 docD1 tokA 0 0 s4
      = Except.ok { mc := appendTopic s4.mc docD1 0 (currentTopicAt s4 docD1 0)
                    cnt := s4.cnt } := by
  have hcur : currentTopicAt s4 docD1 0 = 1 := by
    simp [currentTopicAt, s4]
  have hwv : weightsVec s4.cnt 1 1 1 1 docD1 tokA 1 = [1] := by
    have hr : List.range 1 = [0] := rfl
    simp [weightsVec, densities, s4, hr]
  have hdraw : choices1 ((List.range 1).map (· + 1))
      (weightsVec s4.cnt 1 1 1 1 docD1 tokA (currentTopicAt s4 docD1 0)) 0
      = Except.ok (currentTopicAt s4 docD1 0) := by
    rw [hcur, hwv]
    simp [choices1, cumsum]
  exact ⟨hdraw, C4_self_transition_noop 1 1 1 1 docD1 tokA 0 0 s4 hdraw⟩

/-- C5: for every (document, position), `_compute_MC_topic_approx` maps
the occurrence's whole chain (no burn-in discard) through the mode, and
the returned label is a most frequent element of the chain that is the
lowest label among ties. -/
theorem C5_mc_mode (mc : String → List (List ℕ)) (d : String) (i : ℕ)
    (hi : i < (mc d).length) (hne : (mc d).getD i [] ≠ []) :
    compute_MC_topic_approx mc d = (mc d).map listMode ∧
    (compute_MC_topic_approx mc d).getD i 0 = listMode ((mc d).getD i []) ∧
    (compute_MC_topic_approx mc d).getD i 0 ∈ (mc d).getD i [] ∧
    (∀ y ∈ (mc d).getD i [],
      ((mc d).getD i []).count y
        ≤ ((mc d).getD i []).count ((compute_MC_topic_approx mc d).getD i 0)) ∧
    (∀ y : ℕ,
      ((mc d).getD i []).count y
          = ((mc d).getD i []).count ((compute_MC_topic_approx mc d).getD i 0) →
      (compute_MC_topic_approx mc d).getD i 0 ≤ y) := by
  have h1 : compute_MC_topic_approx mc d = (mc d).map listMode := rfl
  have h2 : (compute_MC_topic_approx mc d).getD i 0
      = listMode ((mc d).getD i []) := by
    rw [h1, List.getD_eq_getElem _ _ (by simpa using hi), List.getElem_map,
      List.getD_eq_getElem _ _ hi]
  obtain ⟨hm, hcnt, htie⟩ := listMode_spec ((mc d).getD i []) hne
  refine ⟨h1, h2, ?_, ?_, ?_⟩
  · rw [h2]; exact hm
  · intro y hy; rw [h2]; exact hcnt y hy
  · intro y hc; rw [h2] at hc ⊢; exact htie y hc

/-- C5 witness: on the tied chain `[1, 2, 2, 1]` the approximation picks
the lowest most-frequent label, `1`. -/
theorem C5_mc_mode_witness :
    (0 < (mc5 docD1).length ∧ (mc5 docD1).getD 0 [] ≠ []) ∧
    (compute_MC_topic_approx mc5 docD1 = (mc5 docD1).map listMode ∧
      (compute_MC_topic_approx mc5 docD1).getD 0 0
        = listMode ((mc5 docD1).getD 0 []) ∧
      (compute_MC_topic_approx mc5 docD1).getD 0 0 ∈ (mc5 docD1).getD 0 [] ∧
      (∀ y ∈ (mc5 docD1).getD 0 [],
        ((mc5 docD1).getD 0 []).count y
          ≤ ((mc5 docD1).getD 0 []).count
              ((compute_MC_topic_approx mc5 docD1).getD 0 0)) ∧
      (∀ y : ℕ,
        ((mc5 docD1).getD 0 []).count y
            = ((mc5 docD1).getD 0 []).count
                ((compute_MC_topic_approx mc5 docD1).getD 0 0) →
        (compute_MC_topic_approx mc5 docD1).getD 0 0 ≤ y)) :=
  ⟨⟨by decide, by decide⟩, C5_mc_mode mc5 docD1 0 (by decide) (by decide)⟩

/-- C6: `_compute_phi_estimates` writes
`phi[k - 1][w] = (N_wk + beta) / (N_k + W * beta)` for every topic `k` in
`[1, K]` and vocabulary position `w`; it is a pure function of the two
count tables and touches no field of the model other than `phi_matrix`. -/
theorem C6_phi_formula (m : LDAModel) (wtc : String → ℕ → ℤ) (ttc : ℕ → ℤ)
    (k wi : ℕ) (hk : k ∈ topicRange m.K) (hw : wi < m.vocabulary.length) :
    (((compute_phi_estimates m wtc ttc).phi_matrix.getD (k - 1) []).getD wi 0
      = ((wtc (m.vocabulary.getD wi noWord) k : ℚ) + m.beta)
          / ((ttc k : ℚ) + (m.W : ℚ) * m.beta)) ∧
    (compute_phi_estimates m wtc ttc).iden_to_tokens = m.iden_to_tokens ∧
    (compute_phi_estimates m wtc ttc).K = m.K ∧
    (compute_phi_estimates m wtc ttc).alpha = m.alpha ∧
    (compute_phi_estimates m wtc ttc).beta = m.beta ∧
    (compute_phi_estimates m wtc ttc).vocabulary = m.vocabulary ∧
    (compute_phi_estimates m wtc ttc).W = m.W ∧
    (compute_phi_estimates m wtc ttc).theta_matrix = m.theta_matrix := by
  obtain ⟨hk1, hk2⟩ := mem_topicRange.mp hk
  refine ⟨?_, rfl, rfl, rfl, rfl, rfl, rfl, rfl⟩
  have hkm : k - 1 < m.K := by omega
  have hphi : (compute_phi_estimates m wtc ttc).phi_matrix
      = (List.range m.K).map (fun ki =>
          m.vocabulary.map (fun word =>
            ((wtc word (ki + 1) : ℚ) + m.beta)
              / ((ttc (ki + 1) : ℚ) + (m.W : ℚ) * m.beta))) := rfl
  have hrow : (compute_phi_estimates m wtc ttc).phi_matrix.getD (k - 1) []
      = m.vocabulary.map (fun word =>
          ((wtc word (k - 1 + 1) : ℚ) + m.beta)
            / ((ttc (k - 1 + 1) : ℚ) + (m.W : ℚ) * m.beta)) := by
    rw [hphi,
      List.getD_eq_getElem ((List.range m.K).map (fun ki =>
        m.vocabulary.map (fun word =>
          ((wtc word (ki + 1) : ℚ) + m.beta)
            / ((ttc (ki + 1) : ℚ) + (m.W : ℚ) * m.beta)))) []
        (by simpa using hkm),
      List.getElem_map, List.getElem_range]
  have hk3 : k - 1 + 1 = k := by omega
  rw [hrow, hk3,
    List.getD_eq_getElem (m.vocabulary.map (fun word =>
      ((wtc word k : ℚ) + m.beta)
        / ((ttc k : ℚ) + (m.W : ℚ) * m.beta))) 0 (by simpa using hw),
    List.getElem_map, List.getD_eq_getElem m.vocabulary noWord hw]

/-- C6 witness: the formula holds at topic 1, word position 0 of the
scenario model with sample count tables. -/
theorem C6_phi_formula_witness :
    (1 ∈ topicRange m10.K ∧ 0 < m10.vocabulary.length) ∧
    (((compute_phi_estimates m10 (fun _ k => (k : ℤ))
          (fun k => (k : ℤ))).phi_matrix.getD 0 []).getD 0 0
        = (((1 : ℤ) : ℚ) + m10.beta)
            / (((1 : ℤ) : ℚ) + (m10.W : ℚ) * m10.beta) ∧
      (compute_phi_estimates m10 (fun _ k => (k : ℤ))
          (fun k => (k : ℤ))).iden_to_tokens = m10.iden_to_tokens ∧
      (compute_phi_estimates m10 (fun _ k => (k : ℤ))
          (fun k => (k : ℤ))).K = m10.K ∧
      (compute_phi_estimates m10 (fun _ k => (k : ℤ))
          (fun k => (k : ℤ))).alpha = m10.alpha ∧
      (compute_phi_estimates m10 (fun _ k => (k : ℤ))
          (fun k => (k : ℤ))).beta = m10.beta ∧
      (compute_phi_estimates m10 (fun _ k => (k : ℤ))
          (fun k => (k : ℤ))).vocabulary = m10.vocabulary ∧
      (compute_phi_estimates m10 (fun _ k => (k : ℤ))
          (fun k => (k : ℤ))).W = m10.W ∧
      (compute_phi_estimates m10 (fun _ k => (k : ℤ))
          (fun k => (k : ℤ))).theta_matrix = m10.theta_matrix) :=
  ⟨⟨by decide, by decide⟩,
    C6_phi_formula m10 (fun _ k => (k : ℤ)) (fun k => (k : ℤ)) 1 0
      (by decide) (by decide)⟩

/-- C3: for any initial assignment with the document lengths and topics in
`[1, K]`, the four count invariants hold immediately after
`_initialize_topics`; and every single per-token step of `fit` (whether it
keeps or changes the topic) preserves them, given that the token's current
topic is a real topic label and its word belongs to the vocabulary. -/
theorem C3_count_invariants (corpus : Corpus) (K : ℕ)
    (assign : String → List ℕ)
    (hassign : ∀ p ∈ corpus, (assign p.1).length = p.2.length ∧
      ∀ t ∈ assign p.1, t ∈ topicRange K) :
    CountInvariant corpus (get_unique_words (corpus.map Prod.snd)) K
      (init_topics corpus assign).cnt ∧
    ∀ (W : ℕ) (alpha beta : ℚ) (doc word : String) (i : ℕ) (u : ℚ)
      (s s2 : SamplerState),
      token_step W K alpha beta doc word i u s = Except.ok s2 →
      currentTopicAt s doc i ∈ topicRange K →
      word ∈ get_unique_words (corpus.map Prod.snd) →
      CountInvariant corpus (get_unique_words (corpus.map Prod.snd)) K s.cnt →
      CountInvariant corpus (get_unique_words (corpus.map Prod.snd)) K
        s2.cnt := by
  refine ⟨init_topics_invariant corpus K assign hassign, ?_⟩
  intro W alpha beta doc word i u s s2 hstep hcurr hword hinv
  unfold token_step at hstep
  split at hstep
  · exact absurd hstep (by simp)
  · next nt hch =>
    split at hstep
    · next hnt =>
      injection hstep with hh
      rw [← hh]
      exact hinv
    · next hnt =>
      injection hstep with hh
      rw [← hh]
      have hnt2 : nt ∈ topicRange K :=
        choices1_ok_mem K
          (weightsVec s.cnt W K alpha beta doc word (currentTopicAt s doc i)) u
          nt (weightsVec_length s.cnt W K alpha beta doc word
            (currentTopicAt s doc i)) hch
      exact updateCounts_invariant corpus
        (get_unique_words (corpus.map Prod.snd)) K s.cnt doc word
        (currentTopicAt s doc i) nt hcurr hnt2 hword
        (by unfold get_unique_words; exact List.nodup_dedup _) hinv

/-- C3 witness: the invariants hold on the scenario corpus with a concrete
valid initial assignment, and the preservation statement is available. -/
theorem C3_count_invariants_witness :
    (∀ p ∈ corpus10, (assign10 p.1).length = p.2.length ∧
      ∀ t ∈ assign10 p.1, t ∈ topicRange 2) ∧
    (CountInvariant corpus10 (get_unique_words (corpus10.map Prod.snd)) 2
        (init_topics corpus10 assign10).cnt ∧
      ∀ (W : ℕ) (alpha beta : ℚ) (doc word : String) (i : ℕ) (u : ℚ)
        (s s2 : SamplerState),
        token_step W 2 alpha beta doc word i u s = Except.ok s2 →
        currentTopicAt s doc i ∈ topicRange 2 →
        word ∈ get_unique_words (corpus10.map Prod.snd) →
        CountInvariant corpus10 (get_unique_words (corpus10.map Prod.snd)) 2
          s.cnt →
        CountInvariant corpus10 (get_unique_words (corpus10.map Prod.snd)) 2
          s2.cnt) :=
  ⟨by decide, C3_count_invariants corpus10 2 assign10 (by decide)⟩

/-- C10: for every valid configuration (corpus with at least one token and
distinct document ids, `K ≥ 1`, run-time `alpha > 0` and `beta > 0`, any
number of sweeps, any initial assignment in range and any draw stream),
`fit` terminates by raising the `NameError` of the estimation step — the
whole sampling phase necessarily succeeds, and the NameError is the only
possible outcome — while the model's `phi_matrix` and `theta_matrix` remain
exactly the all-zero matrices the constructor allocated (`fit` never
produces a model, so it can write neither field). -/
theorem C10_fit_name_error (corpus : Corpus) (Kz : ℤ) (alpha0 beta0 : ℚ)
    (m : LDAModel) (hinit : lda_init corpus Kz alpha0 beta0 = Except.ok m)
    (alpha beta : ℚ) (niter : ℕ) (assign : String → List ℕ) (u : ℕ → ℚ)
    (hK : 1 ≤ Kz) (ha : 0 < alpha) (hb : 0 < beta)
    (hnd : (corpus.map Prod.fst).Nodup)
    (hassign : ∀ p ∈ corpus, (assign p.1).length = p.2.length ∧
      ∀ t ∈ assign p.1, t ∈ topicRange Kz.toNat)
    (htok : ∃ p ∈ corpus, p.2 ≠ []) :
    fit m assign u alpha beta niter = Except.error nameErrorMsg ∧
    m.phi_matrix = zerosMatrix Kz.toNat
      (get_unique_words (corpus.map Prod.snd)).length ∧
    m.theta_matrix = zerosMatrix Kz.toNat corpus.length := by
  unfold lda_init at hinit
  rw [if_neg (by omega)] at hinit
  injection hinit with hrec
  have hcorp : m.iden_to_tokens = corpus := by rw [← hrec]
  have hKm : m.K = Kz.toNat := by rw [← hrec]
  have hWm : m.W = (get_unique_words (corpus.map Prod.snd)).length := by
    rw [← hrec]
  have hphi : m.phi_matrix = zerosMatrix Kz.toNat
      (get_unique_words (corpus.map Prod.snd)).length := by
    rw [← hrec]
  have htheta : m.theta_matrix = zerosMatrix Kz.toNat corpus.length := by
    rw [← hrec]
  refine ⟨?_, hphi, htheta⟩
  obtain ⟨p0, hp0, hp0ne⟩ := htok
  have hW : 1 ≤ (get_unique_words (corpus.map Prod.snd)).length := by
    obtain ⟨w, hw⟩ := List.exists_mem_of_ne_nil p0.2 hp0ne
    have hwv : w ∈ get_unique_words (corpus.map Prod.snd) :=
      word_mem_vocab corpus p0.2 w (List.mem_map_of_mem Prod.snd hp0) hw
    have hne : get_unique_words (corpus.map Prod.snd) ≠ [] :=
      List.ne_nil_of_mem hwv
    have := List.length_pos.mpr hne
    omega
  have hcons0 := init_topics_consistent corpus Kz.toNat assign hassign
  obtain ⟨s2, n2, hrun, _⟩ := runSweeps_ok corpus Kz.toNat
    (get_unique_words (corpus.map Prod.snd)).length alpha beta u
    ha hb hW hnd niter 0 (init_topics corpus assign) hcons0
  unfold fit
  rw [hcorp, hKm, hWm, hrun]

/-- C10 witness: on the scenario corpus with `K = 2`, unit
hyperparameters, three sweeps and a concrete valid assignment, `fit`
raises the NameError and the constructor's matrices are all zero. -/
theorem C10_fit_name_error_witness :
    lda_init corpus10 2 1 1 = Except.ok mA ∧
    ((1 : ℤ) ≤ 2 ∧ (0 : ℚ) < 1 ∧ (corpus10.map Prod.fst).Nodup ∧
      (∀ p ∈ corpus10, (assign10 p.1).length = p.2.length ∧
        ∀ t ∈ assign10 p.1, t ∈ topicRange (Int.toNat 2)) ∧
      (∃ p ∈ corpus10, p.2 ≠ [])) ∧
    (fit mA assign10 (fun _ => 1/2) 1 1 3 = Except.error nameErrorMsg ∧
      mA.phi_matrix = zerosMatrix (Int.toNat 2)
        (get_unique_words (corpus10.map Prod.snd)).length ∧
      mA.theta_matrix = zerosMatrix (Int.toNat 2) corpus10.length) :=
  ⟨rfl, ⟨by decide, by decide, by decide, by decide, by decide⟩,
    C10_fit_name_error corpus10 2 1 1 mA rfl 1 1 3 assign10 (fun _ => 1/2)
      (by decide) (by decide) (by decide) (by decide) (by decide) (by decide)⟩

end LDA
